import Mathlib

/-!
# Shallow embedding of `mm_alloc.c` / `mm_alloc.h`

A memory allocator with a *spatial chain* (every sbrk-extended block, in
address order, threaded through `next`/`prev`), a *free chain* (every free
heap block, LIFO, threaded through `next_free`/`prev_free`), standalone
mmap blocks for large requests, splitting, coalescing and tail release.

Modelling conventions:
* The two intrusive doubly-linked lists are represented as Lean lists in
  chain order: `chain` is the spatial chain from `all_head` to `all_tail`
  (head of the list = `all_head`, last element = `all_tail`), and
  `freeChain` is the free chain from `free_head` following `next_free`.
* Blocks are identified by their header address (a `Nat`); the `next`,
  `prev`, `next_free`, `prev_free` pointers of the C struct are exactly
  the list adjacencies.
* `size_t` arithmetic: `ALIGN_UP` is modelled with an explicit `% 2^64`
  because the C macro wraps for requests near `SIZE_MAX`.  Block-size
  sums (`b->size + hdr_size() + n->size` in coalescing/splitting) are
  plain `Nat` additions: the operands describe disjoint memory regions
  of one 64-bit address space, so those sums cannot wrap at runtime.
* On LP64, `sizeof(block_hdr_t) = 8 + 4 + 4 + 4*8 = 48`, and
  `hdr_size() = ALIGN_UP(48) = 48`, so the payload offset `(b + 1)` and
  the aligned header size coincide: both are `HDRSZ = 48`.
* OS primitives (`sbrk`, `brk`, `mmap`) are oracles passed as arguments:
  a success flag (and an address for `mmap`); `try_release_memory_to_os`
  consumes a list of `(brk succeeded, sbrk fallback succeeded)` pairs,
  one per loop iteration.
* Payload memory is a byte map `mem : Nat → Nat`; `memset` (from
  `mm_calloc`) and `memcpy` (from `mm_realloc`) act on it.
-/

namespace MMAlloc

/-- `2^64`, the size of the `size_t` value space. -/
def U64 : Nat := 18446744073709551616

/-- `SIZE_MAX`, i.e. `(size_t)-1`. -/
def SIZE_MAX : Nat := U64 - 1

/-- `#define ALIGNMENT 16` (mm_alloc.h line 26). -/
def ALIGNMENT : Nat := 16

/-- `#define ALIGN_UP(x) (((x) + (ALIGNMENT-1)) & ~(ALIGNMENT-1))`
(mm_alloc.h line 27), on 64-bit `size_t`: the addition wraps mod `2^64`
and the mask clears the low four bits. -/
def ALIGN_UP (x : Nat) : Nat := (x + 15) % U64 / 16 * 16

/-- `#define MMAP_THRESHOLD (128 * 1024)` (mm_alloc.h line 30). -/
def MMAP_THRESHOLD : Nat := 131072

/-- `#define MIN_SPLIT_SIZE 32` (mm_alloc.h line 33). -/
def MIN_SPLIT_SIZE : Nat := 32

/-- `hdr_size() = ALIGN_UP(sizeof(block_hdr_t))` (mm_alloc.c line 30);
`sizeof(block_hdr_t) = 48` on LP64, already 16-aligned. -/
def HDRSZ : Nat := ALIGN_UP 48

/-- The per-block metadata of `block_hdr_t` (mm_alloc.h lines 7-17);
the four intrusive pointers are represented by list positions. -/
structure BlockHdr where
  size : Nat
  is_free : Bool
  is_mmap : Bool
deriving Repr, DecidableEq

/-- The allocator's global state: spatial chain `all_head`..`all_tail`
(address-ordered, each entry `(header address, header)`), free chain from
`free_head` (list of header addresses), live mmap blocks, the current
program break, and payload memory. -/
@[ext]
structure AllocState where
  chain : List (Nat × BlockHdr)
  freeChain : List Nat
  mmaps : List (Nat × BlockHdr)
  brk : Nat
  mem : Nat → Nat

/-- The initial allocator state: both chains empty, no mappings, program
break at `brk0`. -/
def initState (brk0 : Nat) : AllocState :=
  { chain := [], freeChain := [], mmaps := [], brk := brk0, mem := fun _ => 0 }

/-- Dereference a header address in an address-keyed block list. -/
def lookupBlock (c : List (Nat × BlockHdr)) (a : Nat) : Option BlockHdr :=
  (c.find? (fun x => x.1 == a)).map Prod.snd

/-- The `size` field read through a header address (`curr->size`);
defaults to `0` on a dangling address, which well-formedness rules out. -/
def blkSize (c : List (Nat × BlockHdr)) (a : Nat) : Nat :=
  ((lookupBlock c a).map BlockHdr.size).getD 0

/-- Write the `is_free` flag of the block at address `a`. -/
def setFlag : List (Nat × BlockHdr) → Nat → Bool → List (Nat × BlockHdr)
  | [], _, _ => []
  | x :: c, a, fl =>
    (if x.1 = a then (x.1, { x.2 with is_free := fl }) else x) :: setFlag c a fl

/-- Write the `size` field of the block at address `a`. -/
def setSize : List (Nat × BlockHdr) → Nat → Nat → List (Nat × BlockHdr)
  | [], _, _ => []
  | x :: c, a, n =>
    (if x.1 = a then (x.1, { x.2 with size := n }) else x) :: setSize c a n

/-- Unlink the block at address `a` from a chain. -/
def removeAddr : List (Nat × BlockHdr) → Nat → List (Nat × BlockHdr)
  | [], _ => []
  | x :: c, a => if x.1 = a then removeAddr c a else x :: removeAddr c a

/-- The spatial successor `a->next`: the entry following the entry at
address `a`. -/
def nextOf : List (Nat × BlockHdr) → Nat → Option (Nat × BlockHdr)
  | [], _ => none
  | [_], _ => none
  | x :: y :: rest, a => if x.1 = a then some y else nextOf (y :: rest) a

/-- The spatial predecessor `a->prev`: the entry preceding the entry at
address `a`. -/
def prevOf : List (Nat × BlockHdr) → Nat → Option (Nat × BlockHdr)
  | [], _ => none
  | [_], _ => none
  | x :: y :: rest, a => if y.1 = a then some x else prevOf (y :: rest) a

/-- `insert_free(b)` (mm_alloc.c lines 34-41): set `b->is_free = 1` and
push `b` at the head of the free chain. -/
def insert_free (s : AllocState) (a : Nat) : AllocState :=
  { s with chain := setFlag s.chain a true, freeChain := a :: s.freeChain }

/-- `remove_free(b)` (mm_alloc.c lines 43-53): unlink `b` from the free
chain and clear `b->is_free`. -/
def remove_free (s : AllocState) (a : Nat) : AllocState :=
  { s with chain := setFlag s.chain a false, freeChain := s.freeChain.erase a }

/-- `coalesce_with_next(b)` (mm_alloc.c lines 56-69): if `b->next`
exists, is free and is not mmap, remove it from the free chain, absorb
its size plus a header into `b`, and unlink it from the spatial chain. -/
def coalesce_with_next (s : AllocState) (a : Nat) : AllocState :=
  match nextOf s.chain a with
  | none => s
  | some (na, nb) =>
    if nb.is_free && !nb.is_mmap then
      let bsz := blkSize s.chain a
      let s1 := remove_free s na
      { s1 with chain := removeAddr (setSize s1.chain a (bsz + HDRSZ + nb.size)) na }
    else s

/-- `coalesce_with_prev(b)` (mm_alloc.c lines 72-86): if `b->prev`
exists, is free and is not mmap, remove both from the free chain, absorb
`b` into the predecessor, unlink `b` from the spatial chain, re-insert
the predecessor at the head of the free chain, and return it; otherwise
return `b` unchanged. -/
def coalesce_with_prev (s : AllocState) (a : Nat) : AllocState × Nat :=
  match prevOf s.chain a with
  | none => (s, a)
  | some (pa, pb) =>
    if pb.is_free && !pb.is_mmap then
      let bsz := blkSize s.chain a
      let s1 := remove_free s a
      let s2 := remove_free s1 pa
      let s3 := { s2 with chain := removeAddr (setSize s2.chain pa (pb.size + HDRSZ + bsz)) a }
      (insert_free s3 pa, pa)
    else (s, a)

/-- `request_space_sbrk(size)` (mm_alloc.c lines 89-106): on sbrk
success the new block sits at the old break, live, not mmap, appended at
the spatial tail; the break advances by `hdr_size() + size`. -/
def request_space_sbrk (s : AllocState) (n : Nat) (ok : Bool) :
    AllocState × Option Nat :=
  if ok then
    ({ s with chain := s.chain ++ [(s.brk, ⟨n, false, false⟩)],
              brk := s.brk + HDRSZ + n }, some s.brk)
  else (s, none)

/-- `request_mmap(size)` (mm_alloc.c lines 109-123): on mmap success a
standalone block at the OS-chosen address, live, `is_mmap = 1`, on
neither chain. -/
def request_mmap (s : AllocState) (n : Nat) (ok : Bool) (maddr : Nat) :
    AllocState × Option Nat :=
  if ok then
    ({ s with mmaps := (maddr, ⟨n, false, true⟩) :: s.mmaps }, some maddr)
  else (s, none)

/-- `find_free_block(size)` walk (mm_alloc.c lines 126-134): first block
on the free chain with `curr->size >= size`. -/
def ffbGo (c : List (Nat × BlockHdr)) (n : Nat) : List Nat → Option Nat
  | [] => none
  | a :: rest =>
    match lookupBlock c a with
    | some b => if n ≤ b.size then some a else ffbGo c n rest
    | none => ffbGo c n rest

/-- `find_free_block(size)` (mm_alloc.c lines 126-134): walk the free
chain from `free_head`, return the first fit or `none`. -/
def find_free_block (s : AllocState) (n : Nat) : Option Nat :=
  ffbGo s.chain n s.freeChain

/-- The spatial-chain surgery of `split_block`: shrink the block at `a`
to `n` and insert the new header right after it. -/
def splitChain (a n newA : Nat) (nb : BlockHdr) :
    List (Nat × BlockHdr) → List (Nat × BlockHdr)
  | [] => []
  | x :: rest =>
    if x.1 = a then (x.1, { x.2 with size := n }) :: (newA, nb) :: rest
    else x :: splitChain a n newA nb rest

/-- `split_block(b, size)` (mm_alloc.c lines 137-160): no-op unless
`b->size ≥ size + hdr_size() + MIN_SPLIT_SIZE`; otherwise place a new
free, non-mmap header at `payload(b) + size` carrying the leftover
`b->size - size - hdr_size()`, link it after `b` in the spatial chain,
shrink `b` to `size`, and push the new block onto the free chain. -/
def split_block (s : AllocState) (a : Nat) (n : Nat) : AllocState :=
  match lookupBlock s.chain a with
  | none => s
  | some b =>
    if b.size < n + HDRSZ + MIN_SPLIT_SIZE then s
    else
      let newA := a + HDRSZ + n
      let nb : BlockHdr := ⟨b.size - n - HDRSZ, true, false⟩
      insert_free { s with chain := splitChain a n newA nb s.chain } newA

/-- One-iteration body plus recursion of `try_release_memory_to_os`
(mm_alloc.c lines 163-180): while the spatial tail is free and not mmap,
remove it from the free chain, unlink it from the spatial chain, then
try `brk(t)` (break := header address); on failure fall back to
`sbrk(-(hdr_size() + t->size))` (break decremented by the total size);
if both fail the break is unchanged.  Fuelled: each iteration shortens
the chain. -/
def try_release_go : Nat → AllocState → List (Bool × Bool) → AllocState
  | 0, s, _ => s
  | fuel + 1, s, os =>
    match s.chain.getLast? with
    | none => s
    | some (ta, tb) =>
      if tb.is_free && !tb.is_mmap then
        let s1 := remove_free s ta
        let s2 := { s1 with chain := s1.chain.dropLast }
        let total := HDRSZ + tb.size
        let step := match os with
          | [] => (((false : Bool), (false : Bool)), ([] : List (Bool × Bool)))
          | o :: rest => (o, rest)
        let s3 :=
          if step.1.1 then { s2 with brk := ta }
          else if step.1.2 then { s2 with brk := s2.brk - total }
          else s2
        try_release_go fuel s3 step.2
      else s

/-- `try_release_memory_to_os()` (mm_alloc.c lines 163-180). -/
def try_release_memory_to_os (s : AllocState) (os : List (Bool × Bool)) :
    AllocState :=
  try_release_go s.chain.length s os

/-- The OS oracle consumed by one `mm_malloc` call: whether `sbrk`
succeeds, whether `mmap` succeeds, and the address `mmap` returns. -/
structure OSOracle where
  sbrkOk : Bool
  mmapOk : Bool
  mmapAddr : Nat

/-- `mm_malloc(size)` (mm_alloc.c lines 185-223): reject `0`; align;
mmap path at or above `MMAP_THRESHOLD`; else first-fit (remove from the
free chain, try to split) or sbrk extension; the user pointer is the
header address plus `HDRSZ`. -/
def mm_malloc (s : AllocState) (n : Nat) (os : OSOracle) :
    AllocState × Option Nat :=
  if n = 0 then (s, none)
  else
    let size := ALIGN_UP n
    if MMAP_THRESHOLD ≤ size then
      match request_mmap s size os.mmapOk os.mmapAddr with
      | (s1, some a) => (s1, some (a + HDRSZ))
      | (s1, none) => (s1, none)
    else
      match find_free_block s size with
      | some a =>
        let s1 := remove_free s a
        let s2 := split_block s1 a size
        (s2, some (a + HDRSZ))
      | none =>
        match request_space_sbrk s size os.sbrkOk with
        | (s1, some a) => (s1, some (a + HDRSZ))
        | (s1, none) => (s1, none)

/-- `mm_free(ptr)` (mm_alloc.c lines 226-246): ignore null; recover the
header at `ptr - HDRSZ`; an mmap block is unmapped outright; a heap
block is pushed onto the free chain, coalesced forward then backward,
then tail release runs. -/
def mm_free (s : AllocState) (p : Option Nat) (os : List (Bool × Bool)) :
    AllocState :=
  match p with
  | none => s
  | some ptr =>
    let a := ptr - HDRSZ
    match lookupBlock s.mmaps a with
    | some _ => { s with mmaps := removeAddr s.mmaps a }
    | none =>
      let s1 := insert_free s a
      let s2 := coalesce_with_next s1 a
      let s3 := (coalesce_with_prev s2 a).1
      try_release_memory_to_os s3 os

/-- `memset(p, v, n)` acting on the byte map. -/
def memset (m : Nat → Nat) (p v n : Nat) : Nat → Nat :=
  fun x => if p ≤ x ∧ x < p + n then v else m x

/-- `memcpy(dst, src, n)` acting on the byte map. -/
def memcpy (m : Nat → Nat) (dst src n : Nat) : Nat → Nat :=
  fun x => if dst ≤ x ∧ x < dst + n then m (src + (x - dst)) else m x

/-- `mm_calloc(nmemb, size)` (mm_alloc.c lines 249-258): zero factors
and the `nmemb > (size_t)-1 / size` overflow guard return null with no
allocation; otherwise `mm_malloc(nmemb * size)` then `memset 0`. -/
def mm_calloc (s : AllocState) (nmemb size : Nat) (os : OSOracle) :
    AllocState × Option Nat :=
  if nmemb = 0 || size = 0 then (s, none)
  else if SIZE_MAX / size < nmemb then (s, none)
  else
    let total := nmemb * size % U64
    match mm_malloc s total os with
    | (s1, some p) => ({ s1 with mem := memset s1.mem p 0 total }, some p)
    | (s1, none) => (s1, none)

/-- `mm_realloc(ptr, size)` (mm_alloc.c lines 261-316): null pointer
delegates to `mm_malloc`; zero size delegates to `mm_free`; an mmap
block is kept when large enough, else relocated; a heap block is split
in place on shrink, grown by absorbing a free successor when that fits,
else relocated (allocate new, copy `hdr->size` bytes, free old). -/
def mm_realloc (s : AllocState) (p : Option Nat) (n : Nat) (os : OSOracle)
    (rel : List (Bool × Bool)) : AllocState × Option Nat :=
  match p with
  | none => mm_malloc s n os
  | some ptr =>
    if n = 0 then (mm_free s (some ptr) rel, none)
    else
      let size := ALIGN_UP n
      let a := ptr - HDRSZ
      match lookupBlock s.mmaps a with
      | some mb =>
        if size ≤ mb.size then (s, some ptr)
        else
          match mm_malloc s size os with
          | (s1, none) => (s1, none)
          | (s1, some np) =>
            let s2 := { s1 with mem := memcpy s1.mem np ptr mb.size }
            (mm_free s2 (some ptr) rel, some np)
      | none =>
        match lookupBlock s.chain a with
        | none => (s, none)
        | some b =>
          if size ≤ b.size then (split_block s a size, some ptr)
          else
            let grown :=
              match nextOf s.chain a with
              | some (na, nb) =>
                if nb.is_free && !nb.is_mmap && decide (size ≤ b.size + HDRSZ + nb.size) then
                  let s1 := remove_free s na
                  let s2 := { s1 with
                    chain := removeAddr (setSize s1.chain a (b.size + HDRSZ + nb.size)) na }
                  some (split_block s2 a size)
                else none
              | none => none
            match grown with
            | some s2 => (s2, some ptr)
            | none =>
              match mm_malloc s size os with
              | (s1, none) => (s1, none)
              | (s1, some np) =>
                let s2 := { s1 with mem := memcpy s1.mem np ptr b.size }
                (mm_free s2 (some ptr) rel, some np)

/-! ## Invariants (spec §3, §8) -/

/-- The spatial-layout relation between two blocks: the first one's
memory (header plus payload) ends at or before the second one's header.
On the spatial chain this holds pairwise (spec I1/I2 weakened to account
for the §9 tail-release leak, which can leave a gap). -/
def gapR (x y : Nat × BlockHdr) : Prop := x.1 + HDRSZ + x.2.size ≤ y.1

/-- The spatial chain is address-ordered with non-overlapping blocks. -/
def Spaced (c : List (Nat × BlockHdr)) : Prop := c.Pairwise gapR

/-- Spec I4 / P3: no two adjacent spatial-chain blocks are both free. -/
def NoAdjFree (c : List (Nat × BlockHdr)) : Prop :=
  List.Chain' (fun x y => x.2.is_free = false ∨ y.2.is_free = false) c

/-- Spec I6 / P1 for the whole block population: every block's size is a
multiple of `ALIGNMENT` and at least `ALIGNMENT`. -/
def SizeInv (s : AllocState) : Prop :=
  (∀ x ∈ s.chain, x.2.size % 16 = 0 ∧ 16 ≤ x.2.size) ∧
  (∀ x ∈ s.mmaps, x.2.size % 16 = 0 ∧ 16 ≤ x.2.size)

/-- Structural well-formedness of an allocator state: spatial layout,
break bound, 16-alignment of addresses, sizes and break, no mmap block
on the spatial chain (I5), free-chain membership agrees with `is_free`
(I3), the free chain has no duplicates, and mmap blocks carry their
flags and an aligned size. -/
structure WF (s : AllocState) : Prop where
  spaced : Spaced s.chain
  brkHi : ∀ x ∈ s.chain, x.1 + HDRSZ + x.2.size ≤ s.brk
  addrAligned : ∀ x ∈ s.chain, x.1 % 16 = 0
  sizeAligned : ∀ x ∈ s.chain, x.2.size % 16 = 0
  brkAligned : s.brk % 16 = 0
  noMmap : ∀ x ∈ s.chain, x.2.is_mmap = false
  freeSub : ∀ a ∈ s.freeChain, ∃ b, (a, b) ∈ s.chain ∧ b.is_free = true
  freeComplete : ∀ x ∈ s.chain, x.2.is_free = true → x.1 ∈ s.freeChain
  freeNodup : s.freeChain.Nodup
  mmapWF : ∀ x ∈ s.mmaps, x.2.is_mmap = true ∧ x.2.is_free = false ∧
    x.2.size % 16 = 0 ∧ 16 ≤ x.2.size

/-! ## Arithmetic facts about `ALIGN_UP` and `HDRSZ` -/

theorem HDRSZ_eq : HDRSZ = 48 := rfl

theorem ALIGN_UP_mod16 (x : Nat) : ALIGN_UP x % 16 = 0 :=
  Nat.mul_mod_left _ 16

theorem ALIGN_UP_eq_of_no_wrap {x : Nat} (h : x + 15 < U64) :
    ALIGN_UP x = (x + 15) / 16 * 16 := by
  rw [ALIGN_UP, Nat.mod_eq_of_lt h]

theorem le_ALIGN_UP {x : Nat} (h : x + 15 < U64) : x ≤ ALIGN_UP x := by
  rw [ALIGN_UP_eq_of_no_wrap h]
  have h1 := Nat.div_add_mod (x + 15) 16
  have h2 : (x + 15) % 16 < 16 := Nat.mod_lt _ (by norm_num)
  omega

theorem ALIGN_UP_lt {x : Nat} (h : x + 15 < U64) : ALIGN_UP x < x + 16 := by
  rw [ALIGN_UP_eq_of_no_wrap h]
  have h1 := Nat.div_add_mod (x + 15) 16
  omega

theorem ALIGN_UP_pos {x : Nat} (hx : 0 < x) (h : x + 15 < U64) :
    16 ≤ ALIGN_UP x := by
  have h1 := le_ALIGN_UP h
  have h2 := ALIGN_UP_mod16 x
  omega

/-! ## List-surgery helper lemmas -/

theorem setFlag_append (L R : List (Nat × BlockHdr)) (a : Nat) (fl : Bool) :
    setFlag (L ++ R) a fl = setFlag L a fl ++ setFlag R a fl := by
  induction L with
  | nil => rfl
  | cons x L ih => simp [setFlag, ih]

theorem setFlag_eq_of_not_mem (c : List (Nat × BlockHdr)) (a : Nat) (fl : Bool)
    (h : a ∉ c.map Prod.fst) : setFlag c a fl = c := by
  induction c with
  | nil => rfl
  | cons x c ih =>
    simp only [List.map_cons, List.mem_cons, not_or] at h
    simp [setFlag, Ne.symm h.1, ih h.2]

theorem setFlag_addrs (c : List (Nat × BlockHdr)) (a : Nat) (fl : Bool) :
    (setFlag c a fl).map Prod.fst = c.map Prod.fst := by
  induction c with
  | nil => rfl
  | cons x c ih =>
    by_cases hx : x.1 = a <;> simp [setFlag, hx, ih]

theorem setSize_append (L R : List (Nat × BlockHdr)) (a n : Nat) :
    setSize (L ++ R) a n = setSize L a n ++ setSize R a n := by
  induction L with
  | nil => rfl
  | cons x L ih => simp [setSize, ih]

theorem setSize_eq_of_not_mem (c : List (Nat × BlockHdr)) (a n : Nat)
    (h : a ∉ c.map Prod.fst) : setSize c a n = c := by
  induction c with
  | nil => rfl
  | cons x c ih =>
    simp only [List.map_cons, List.mem_cons, not_or] at h
    simp [setSize, Ne.symm h.1, ih h.2]

theorem removeAddr_append (L R : List (Nat × BlockHdr)) (a : Nat) :
    removeAddr (L ++ R) a = removeAddr L a ++ removeAddr R a := by
  induction L with
  | nil => rfl
  | cons x L ih =>
    by_cases hx : x.1 = a <;> simp [removeAddr, hx, ih]

theorem removeAddr_eq_of_not_mem (c : List (Nat × BlockHdr)) (a : Nat)
    (h : a ∉ c.map Prod.fst) : removeAddr c a = c := by
  induction c with
  | nil => rfl
  | cons x c ih =>
    simp only [List.map_cons, List.mem_cons, not_or] at h
    simp [removeAddr, Ne.symm h.1, ih h.2]

theorem lookupBlock_cons_self (x : Nat × BlockHdr) (c : List (Nat × BlockHdr)) :
    lookupBlock (x :: c) x.1 = some x.2 := by
  simp [lookupBlock, List.find?_cons_of_pos]

theorem lookupBlock_cons_ne (x : Nat × BlockHdr) (c : List (Nat × BlockHdr))
    (a : Nat) (h : x.1 ≠ a) : lookupBlock (x :: c) a = lookupBlock c a := by
  simp only [lookupBlock]
  rw [List.find?_cons_of_neg _ (by simpa using h)]

theorem lookupBlock_append_cons (L R : List (Nat × BlockHdr)) (a : Nat)
    (b : BlockHdr) (hL : a ∉ L.map Prod.fst) :
    lookupBlock (L ++ (a, b) :: R) a = some b := by
  induction L with
  | nil => exact lookupBlock_cons_self (a, b) R
  | cons x L ih =>
    simp only [List.map_cons, List.mem_cons, not_or] at hL
    rw [List.cons_append, lookupBlock_cons_ne x _ a (Ne.symm hL.1)]
    exact ih hL.2

theorem lookupBlock_eq_none (c : List (Nat × BlockHdr)) (a : Nat)
    (h : a ∉ c.map Prod.fst) : lookupBlock c a = none := by
  induction c with
  | nil => rfl
  | cons x c ih =>
    simp only [List.map_cons, List.mem_cons, not_or] at h
    rw [lookupBlock_cons_ne x _ a (Ne.symm h.1)]
    exact ih h.2

theorem splitChain_spec (L R : List (Nat × BlockHdr)) (a : Nat) (b : BlockHdr)
    (n newA : Nat) (nb : BlockHdr) (hL : a ∉ L.map Prod.fst) :
    splitChain a n newA nb (L ++ (a, b) :: R) =
      L ++ (a, { b with size := n }) :: (newA, nb) :: R := by
  induction L with
  | nil => simp [splitChain]
  | cons x L ih =>
    simp only [List.map_cons, List.mem_cons, not_or] at hL
    rw [List.cons_append, splitChain, if_neg (Ne.symm hL.1)]
    exact congrArg (x :: ·) (ih hL.2)

theorem nextOf_eq_none (c : List (Nat × BlockHdr)) (a : Nat)
    (h : a ∉ c.map Prod.fst) : nextOf c a = none := by
  induction c with
  | nil => rfl
  | cons x c ih =>
    cases c with
    | nil => rfl
    | cons y rest =>
      simp only [List.map_cons, List.mem_cons, not_or] at h ih
      rw [nextOf, if_neg (Ne.symm h.1)]
      exact ih ⟨h.2.1, h.2.2⟩

theorem nextOf_append_cons (L R : List (Nat × BlockHdr)) (a : Nat)
    (b : BlockHdr) (hL : a ∉ L.map Prod.fst) :
    nextOf (L ++ (a, b) :: R) a = R.head? := by
  induction L with
  | nil =>
    cases R with
    | nil => rfl
    | cons y rest => simp [nextOf]
  | cons x L ih =>
    simp only [List.map_cons, List.mem_cons, not_or] at hL
    have hne : ¬ x.1 = a := Ne.symm hL.1
    cases L with
    | nil =>
      rw [List.nil_append] at ih
      cases R with
      | nil => simp [nextOf, hne]
      | cons y rest => simp [nextOf, hne]
    | cons z L' =>
      simpa [nextOf, hne] using ih hL.2

theorem prevOf_eq_none (c : List (Nat × BlockHdr)) (a : Nat)
    (h : a ∉ c.map Prod.fst) : prevOf c a = none := by
  induction c with
  | nil => rfl
  | cons x c ih =>
    cases c with
    | nil => rfl
    | cons y rest =>
      simp only [List.map_cons, List.mem_cons, not_or] at h ih
      rw [prevOf, if_neg (Ne.symm h.2.1)]
      exact ih ⟨h.2.1, h.2.2⟩

theorem prevOf_append_cons (L R : List (Nat × BlockHdr)) (a : Nat)
    (b : BlockHdr) (hL : a ∉ L.map Prod.fst) (hR : a ∉ R.map Prod.fst) :
    prevOf (L ++ (a, b) :: R) a = L.getLast? := by
  induction L with
  | nil =>
    cases R with
    | nil => rfl
    | cons y rest =>
      simp only [List.map_cons, List.mem_cons, not_or] at hR
      rw [List.nil_append, prevOf, if_neg (Ne.symm hR.1)]
      exact prevOf_eq_none _ a (by
        simp only [List.map_cons, List.mem_cons, not_or]
        exact ⟨hR.1, hR.2⟩)
  | cons x L ih =>
    simp only [List.map_cons, List.mem_cons, not_or] at hL
    cases L with
    | nil =>
      have hv : prevOf ([x] ++ (a, b) :: R) a = some x := by
        rw [List.cons_append, List.nil_append, prevOf, if_pos rfl]
      rw [hv]
      simp
    | cons z L' =>
      have hstep : prevOf (x :: (z :: L' ++ (a, b) :: R)) a =
          prevOf (z :: L' ++ (a, b) :: R) a := by
        rw [List.cons_append, prevOf, if_neg (by
          simp only [List.map_cons, List.mem_cons, not_or] at hL
          exact Ne.symm hL.2.1)]
      rw [List.cons_append, hstep, ih hL.2]
      simp [List.getLast?_cons_cons]

/-! ## C5: first-fit search -/

theorem ffbGo_some_iff (c : List (Nat × BlockHdr)) (n : Nat) (a : Nat) :
    ∀ fc : List Nat, (∀ x ∈ fc, (lookupBlock c x).isSome) →
      (ffbGo c n fc = some a ↔
        ∃ l1 l2, fc = l1 ++ a :: l2 ∧ n ≤ blkSize c a ∧
          ∀ x ∈ l1, blkSize c x < n)
  | [], _ => by
    constructor
    · intro h; exact absurd h (by simp [ffbGo])
    · rintro ⟨l1, l2, heq, -, -⟩
      exact absurd heq.symm (List.append_ne_nil_of_right_ne_nil l1 (List.cons_ne_nil a l2))
  | x :: fc, hres => by
    have hx : (lookupBlock c x).isSome := hres x (List.mem_cons_self x fc)
    obtain ⟨b, hb⟩ := Option.isSome_iff_exists.mp hx
    have hsz : blkSize c x = b.size := by simp [blkSize, hb]
    rw [ffbGo, hb]
    by_cases hle : n ≤ b.size
    · simp only [if_pos hle]
      constructor
      · rintro ⟨rfl⟩
        exact ⟨[], fc, rfl, by simpa [hsz], by simp⟩
      · rintro ⟨l1, l2, heq, hsa, hlt⟩
        cases l1 with
        | nil =>
          simp only [List.nil_append, List.cons.injEq] at heq
          rw [heq.1]
        | cons y l1 =>
          simp only [List.cons_append, List.cons.injEq] at heq
          have hxl : blkSize c x < n := by
            rw [heq.1]; exact hlt y (List.mem_cons_self y l1)
          omega
    · simp only [if_neg hle]
      rw [ffbGo_some_iff c n a fc (fun y hy => hres y (List.mem_cons_of_mem x hy))]
      constructor
      · rintro ⟨l1, l2, rfl, hsa, hlt⟩
        refine ⟨x :: l1, l2, rfl, hsa, ?_⟩
        intro y hy
        rcases List.mem_cons.mp hy with rfl | hy
        · omega
        · exact hlt y hy
      · rintro ⟨l1, l2, heq, hsa, hlt⟩
        cases l1 with
        | nil =>
          simp only [List.nil_append, List.cons.injEq] at heq
          rw [← heq.1, hsz] at hsa
          omega
        | cons y l1 =>
          simp only [List.cons_append, List.cons.injEq] at heq
          exact ⟨l1, l2, heq.2, hsa, fun z hz => hlt z (List.mem_cons_of_mem y hz)⟩

theorem ffbGo_none_iff (c : List (Nat × BlockHdr)) (n : Nat) :
    ∀ fc : List Nat, (∀ x ∈ fc, (lookupBlock c x).isSome) →
      (ffbGo c n fc = none ↔ ∀ x ∈ fc, blkSize c x < n)
  | [], _ => by simp [ffbGo]
  | x :: fc, hres => by
    have hx : (lookupBlock c x).isSome := hres x (List.mem_cons_self x fc)
    obtain ⟨b, hb⟩ := Option.isSome_iff_exists.mp hx
    have hsz : blkSize c x = b.size := by simp [blkSize, hb]
    rw [ffbGo, hb]
    by_cases hle : n ≤ b.size
    · simp only [if_pos hle]
      constructor
      · intro h; exact (Option.some_ne_none x h).elim
      · intro h; have := h x (List.mem_cons_self x fc); omega
    · simp only [if_neg hle]
      rw [ffbGo_none_iff c n fc (fun y hy => hres y (List.mem_cons_of_mem x hy))]
      constructor
      · intro h y hy
        rcases List.mem_cons.mp hy with rfl | hy
        · omega
        · exact h y hy
      · intro h y hy; exact h y (List.mem_cons_of_mem x hy)

/-- C5: `find_free_block(n)` walks the free chain from `free_head` and
returns the first block whose `size ≥ n` — even when a later block is a
closer fit — or `none` when no block on the chain is large enough.
(The hypothesis states that every free-chain address dereferences to a
block, which well-formedness guarantees.) -/
theorem find_free_block_first_fit (s : AllocState) (n : Nat)
    (hres : ∀ x ∈ s.freeChain, (lookupBlock s.chain x).isSome) :
    (∀ a, find_free_block s n = some a ↔
      ∃ l1 l2, s.freeChain = l1 ++ a :: l2 ∧ n ≤ blkSize s.chain a ∧
        ∀ x ∈ l1, blkSize s.chain x < n) ∧
    (find_free_block s n = none ↔ ∀ x ∈ s.freeChain, blkSize s.chain x < n) :=
  ⟨fun a => ffbGo_some_iff s.chain n a s.freeChain hres,
   ffbGo_none_iff s.chain n s.freeChain hres⟩

/-- Witness for C5: on a concrete state whose free chain holds blocks of
sizes 16 and 64, searching for 32 skips the closer-fit head and returns
the first fitting block. -/
theorem find_free_block_first_fit_witness :
    (∀ x ∈ (AllocState.freeChain ⟨[(0, ⟨16, true, false⟩), (64, ⟨64, true, false⟩)],
        [0, 64], [], 176, fun _ => 0⟩),
      (lookupBlock (AllocState.chain ⟨[(0, ⟨16, true, false⟩), (64, ⟨64, true, false⟩)],
        [0, 64], [], 176, fun _ => 0⟩) x).isSome) ∧
    find_free_block ⟨[(0, ⟨16, true, false⟩), (64, ⟨64, true, false⟩)],
        [0, 64], [], 176, fun _ => 0⟩ 32 = some 64 := by
  refine ⟨by decide, ?_⟩
  have h := (find_free_block_first_fit ⟨[(0, ⟨16, true, false⟩), (64, ⟨64, true, false⟩)],
        [0, 64], [], 176, fun _ => 0⟩ 32 (by decide)).1 64
  exact h.mpr ⟨[0], [], by decide, by decide, by decide⟩

/-! ## C3: split_block -/

theorem setFlag_mid (L R : List (Nat × BlockHdr)) (a newA : Nat)
    (bn nb : BlockHdr) (fl : Bool) (hL : newA ∉ L.map Prod.fst)
    (hR : newA ∉ R.map Prod.fst) (hane : a ≠ newA) :
    setFlag (L ++ (a, bn) :: (newA, nb) :: R) newA fl =
      L ++ (a, bn) :: (newA, { nb with is_free := fl }) :: R := by
  rw [setFlag_append, setFlag_eq_of_not_mem L newA fl hL]
  simp [setFlag, hane, setFlag_eq_of_not_mem R newA fl hR]

/-- C3: `split_block(b, n)` splits exactly when
`b.size ≥ n + hdr_size() + MIN_SPLIT_SIZE` and otherwise leaves the
state untouched; when it splits, the new block placed at
`payload(b) + n = a + HDRSZ + n` has size `b.size − n − HDRSZ`, is
marked free and not mapped, is linked into the spatial chain directly
between `b` and `b`'s successor (covering the tail case `R = []`), is
pushed onto the head of the free chain, and `b.size` becomes `n`. -/
theorem split_block_spec (s : AllocState) (L R : List (Nat × BlockHdr))
    (a n : Nat) (b : BlockHdr)
    (hc : s.chain = L ++ (a, b) :: R)
    (hL : a ∉ L.map Prod.fst)
    (hfreshL : a + HDRSZ + n ∉ L.map Prod.fst)
    (hfreshR : a + HDRSZ + n ∉ R.map Prod.fst)
    (hn : n ≤ b.size) :
    (b.size < n + HDRSZ + MIN_SPLIT_SIZE → split_block s a n = s) ∧
    (n + HDRSZ + MIN_SPLIT_SIZE ≤ b.size →
      split_block s a n =
        { s with
          chain := L ++ (a, { b with size := n }) ::
            (a + HDRSZ + n, ⟨b.size - n - HDRSZ, true, false⟩) :: R,
          freeChain := (a + HDRSZ + n) :: s.freeChain }) := by
  have hlook : lookupBlock s.chain a = some b := by
    rw [hc]; exact lookupBlock_append_cons L R a b hL
  have h48 : HDRSZ = 48 := HDRSZ_eq
  have hane : a ≠ a + HDRSZ + n := by omega
  constructor
  · intro hlt
    simp only [split_block, hlook, if_pos hlt]
  · intro hge
    have hnlt : ¬ b.size < n + HDRSZ + MIN_SPLIT_SIZE := by
      simp only [MIN_SPLIT_SIZE] at hge ⊢; omega
    simp only [split_block, hlook, if_neg hnlt, insert_free]
    rw [hc, splitChain_spec L R a b n (a + HDRSZ + n) _ hL,
      setFlag_mid L R a (a + HDRSZ + n) _ _ true hfreshL hfreshR hane]

/-- Witness for C3: splitting a 96-byte block at 16 with the minimum
leftover produces exactly the claimed spatial chain, new free block and
free-chain push. -/
theorem split_block_spec_witness :
    (split_block ⟨[(0, ⟨96, false, false⟩)], [], [], 144, fun _ => 0⟩ 0 16).chain =
      [(0, ⟨16, false, false⟩), (64, ⟨32, true, false⟩)] ∧
    (split_block ⟨[(0, ⟨96, false, false⟩)], [], [], 144, fun _ => 0⟩ 0 16).freeChain =
      [64] := by
  have h := (split_block_spec ⟨[(0, ⟨96, false, false⟩)], [], [], 144, fun _ => 0⟩
    [] [] 0 16 ⟨96, false, false⟩ rfl (by decide) (by decide) (by decide)
    (by decide)).2 (by decide)
  rw [h]
  exact ⟨rfl, rfl⟩

/-! ## C4: coalesce_with_prev -/

theorem setFlag_single (L R : List (Nat × BlockHdr)) (p : Nat) (v : BlockHdr)
    (fl : Bool) (hL : p ∉ L.map Prod.fst) (hR : p ∉ R.map Prod.fst) :
    setFlag (L ++ (p, v) :: R) p fl = L ++ (p, { v with is_free := fl }) :: R := by
  rw [setFlag_append, setFlag_eq_of_not_mem L p fl hL]
  simp [setFlag, setFlag_eq_of_not_mem R p fl hR]

theorem setSize_single (L R : List (Nat × BlockHdr)) (p : Nat) (v : BlockHdr)
    (n : Nat) (hL : p ∉ L.map Prod.fst) (hR : p ∉ R.map Prod.fst) :
    setSize (L ++ (p, v) :: R) p n = L ++ (p, { v with size := n }) :: R := by
  rw [setSize_append, setSize_eq_of_not_mem L p n hL]
  simp [setSize, setSize_eq_of_not_mem R p n hR]

theorem removeAddr_single (L R : List (Nat × BlockHdr)) (p : Nat) (v : BlockHdr)
    (hL : p ∉ L.map Prod.fst) (hR : p ∉ R.map Prod.fst) :
    removeAddr (L ++ (p, v) :: R) p = L ++ R := by
  rw [removeAddr_append, removeAddr_eq_of_not_mem L p hL]
  simp [removeAddr, removeAddr_eq_of_not_mem R p hR]

theorem mem_map_fst_append_cons {L : List (Nat × BlockHdr)} {x p : Nat}
    {v : BlockHdr} (hL : x ∉ L.map Prod.fst) (hp : x ≠ p) :
    x ∉ (L ++ [(p, v)]).map Prod.fst := by
  simp only [List.map_append, List.mem_append, List.map_cons, List.map_nil,
    List.mem_cons, List.not_mem_nil, or_false, not_or]
  exact ⟨hL, hp⟩

theorem removeAddr_setFlag_shape (L R : List (Nat × BlockHdr)) (pa a : Nat)
    (P B0 : BlockHdr) (hpaL : pa ∉ L.map Prod.fst) (hpaR : pa ∉ R.map Prod.fst)
    (haL : a ∉ L.map Prod.fst) (hapa : a ≠ pa) (haR : a ∉ R.map Prod.fst) :
    setFlag (removeAddr (L ++ (pa, P) :: (a, B0) :: R) a) pa true =
      L ++ (pa, { P with is_free := true }) :: R := by
  rw [show L ++ (pa, P) :: (a, B0) :: R = (L ++ [(pa, P)]) ++ (a, B0) :: R by simp,
    removeAddr_single _ R a B0 (mem_map_fst_append_cons haL hapa) haR,
    show (L ++ [(pa, P)]) ++ R = L ++ (pa, P) :: R by simp,
    setFlag_single L R pa P true hpaL hpaR]

theorem coalesce_with_prev_cases (s : AllocState) (a : Nat) :
    (∀ L R pa pb b, s.chain = L ++ (pa, pb) :: (a, b) :: R →
      a ∉ L.map Prod.fst → a ≠ pa → a ∉ R.map Prod.fst →
      pa ∉ L.map Prod.fst → pa ∉ R.map Prod.fst →
      pb.is_free = true → pb.is_mmap = false →
      coalesce_with_prev s a =
        ({ s with
            chain := L ++ (pa, ⟨pb.size + HDRSZ + b.size, true, false⟩) :: R,
            freeChain := pa :: ((s.freeChain.erase a).erase pa) }, pa)) ∧
    (∀ L R pa pb b, s.chain = L ++ (pa, pb) :: (a, b) :: R →
      a ∉ L.map Prod.fst → a ≠ pa → a ∉ R.map Prod.fst →
      (pb.is_free = false ∨ pb.is_mmap = true) →
      coalesce_with_prev s a = (s, a)) ∧
    (∀ R b, s.chain = (a, b) :: R → a ∉ R.map Prod.fst →
      coalesce_with_prev s a = (s, a)) := by
  refine ⟨?_, ?_, ?_⟩
  · intro L R pa pb b hc haL hapa haR hpaL hpaR hfree hmm
    have haL' : a ∉ (L ++ [(pa, pb)]).map Prod.fst :=
      mem_map_fst_append_cons haL hapa
    have hprev : prevOf s.chain a = some (pa, pb) := by
      rw [hc, show L ++ (pa, pb) :: (a, b) :: R = (L ++ [(pa, pb)]) ++ (a, b) :: R by simp,
        prevOf_append_cons _ R a b haL' haR, List.getLast?_concat]
    have hlook : lookupBlock s.chain a = some b := by
      rw [hc, show L ++ (pa, pb) :: (a, b) :: R = (L ++ [(pa, pb)]) ++ (a, b) :: R by simp]
      exact lookupBlock_append_cons _ R a b haL'
    have hbsz : blkSize s.chain a = b.size := by simp [blkSize, hlook]
    simp only [coalesce_with_prev, hprev, hfree, hmm, Bool.not_false, Bool.and_self,
      if_pos, remove_free, insert_free, hbsz]
    refine Prod.ext ?_ rfl
    refine AllocState.ext ?_ rfl rfl rfl rfl
    simp only
    rw [hc]
    rw [show L ++ (pa, pb) :: (a, b) :: R = (L ++ [(pa, pb)]) ++ (a, b) :: R by simp,
      setFlag_single _ R a b false haL' haR]
    rw [show (L ++ [(pa, pb)]) ++ (a, { b with is_free := false }) :: R =
      L ++ (pa, pb) :: (a, { b with is_free := false }) :: R by simp]
    have hpaR' : pa ∉ ((a, { b with is_free := false }) :: R).map Prod.fst := by
      simp only [List.map_cons, List.mem_cons, not_or]
      exact ⟨Ne.symm hapa, hpaR⟩
    rw [setFlag_single L _ pa pb false hpaL hpaR',
      setSize_single L _ pa _ (pb.size + HDRSZ + b.size) hpaL hpaR']
    rw [removeAddr_setFlag_shape L R pa a _ _ hpaL hpaR haL hapa haR]
    simp [hmm]
  · intro L R pa pb b hc haL hapa haR hcond
    have haL' : a ∉ (L ++ [(pa, pb)]).map Prod.fst :=
      mem_map_fst_append_cons haL hapa
    have hprev : prevOf s.chain a = some (pa, pb) := by
      rw [hc, show L ++ (pa, pb) :: (a, b) :: R = (L ++ [(pa, pb)]) ++ (a, b) :: R by simp,
        prevOf_append_cons _ R a b haL' haR, List.getLast?_concat]
    have hcond' : (pb.is_free && !pb.is_mmap) = false := by
      rcases hcond with h | h <;> simp [h]
    simp only [coalesce_with_prev, hprev, hcond', Bool.false_eq_true, if_false]
  · intro R b hc haR
    have hprev : prevOf s.chain a = none := by
      rw [hc, show (a, b) :: R = [] ++ (a, b) :: R from rfl,
        prevOf_append_cons [] R a b (by simp) haR]
      rfl
    simp only [coalesce_with_prev, hprev]

/-- C4: `coalesce_with_prev(b)`, when `b`'s spatial predecessor `p`
exists, is free and is not mapped, removes both `b` and `p` from the
free chain, grows `p` by `hdr_size() + b.size`, unlinks `b` from the
spatial chain (covering the tail case `R = []`), re-inserts `p` at the
head of the free chain and returns `p`; when the predecessor is not
free, is mapped, or does not exist, it changes nothing and returns `b`. -/
theorem coalesce_with_prev_spec (s : AllocState) (a : Nat) :
    (∀ L R pa pb b, s.chain = L ++ (pa, pb) :: (a, b) :: R →
      a ∉ L.map Prod.fst → a ≠ pa → a ∉ R.map Prod.fst →
      pa ∉ L.map Prod.fst → pa ∉ R.map Prod.fst →
      pb.is_free = true → pb.is_mmap = false →
      coalesce_with_prev s a =
        ({ s with
            chain := L ++ (pa, ⟨pb.size + HDRSZ + b.size, true, false⟩) :: R,
            freeChain := pa :: ((s.freeChain.erase a).erase pa) }, pa)) ∧
    (∀ L R pa pb b, s.chain = L ++ (pa, pb) :: (a, b) :: R →
      a ∉ L.map Prod.fst → a ≠ pa → a ∉ R.map Prod.fst →
      (pb.is_free = false ∨ pb.is_mmap = true) →
      coalesce_with_prev s a = (s, a)) ∧
    (∀ R b, s.chain = (a, b) :: R → a ∉ R.map Prod.fst →
      coalesce_with_prev s a = (s, a)) :=
  coalesce_with_prev_cases s a

/-- Witness for C4: freeing context `[p free 32][b 16][c live 16]`,
coalescing `b` at address 80 with its free predecessor at 0 yields one
free 96-byte block at 0, re-inserted at the free-chain head. -/
theorem coalesce_with_prev_spec_witness :
    (coalesce_with_prev
      ⟨[(0, ⟨32, true, false⟩), (80, ⟨16, true, false⟩), (144, ⟨16, false, false⟩)],
        [80, 0], [], 208, fun _ => 0⟩ 80).1.chain =
      [(0, ⟨96, true, false⟩), (144, ⟨16, false, false⟩)] ∧
    (coalesce_with_prev
      ⟨[(0, ⟨32, true, false⟩), (80, ⟨16, true, false⟩), (144, ⟨16, false, false⟩)],
        [80, 0], [], 208, fun _ => 0⟩ 80).1.freeChain = [0] ∧
    (coalesce_with_prev
      ⟨[(0, ⟨32, true, false⟩), (80, ⟨16, true, false⟩), (144, ⟨16, false, false⟩)],
        [80, 0], [], 208, fun _ => 0⟩ 80).2 = 0 := by
  have h := (coalesce_with_prev_spec
    ⟨[(0, ⟨32, true, false⟩), (80, ⟨16, true, false⟩), (144, ⟨16, false, false⟩)],
      [80, 0], [], 208, fun _ => 0⟩ 80).1
    [] [(144, ⟨16, false, false⟩)] 0 ⟨32, true, false⟩ ⟨16, true, false⟩
    rfl (by decide) (by decide) (by decide) (by decide) (by decide) rfl rfl
  rw [h]
  refine ⟨by decide, by decide, by decide⟩

/-! ## C8: tail release -/

/-- C8: one iteration of the tail-release loop.  When the spatial tail
is free and not mapped, it is removed from the free chain (`erase ta`)
and unlinked from the spatial chain (the chain becomes `C`), and then:
on `brk` success the program break is lowered to the tail's header
address `ta`; on `brk` failure a negative heap-extension by the total
block size `HDRSZ + tb.size` is attempted, lowering the break by that
amount; if that also fails the break — hence the block's memory — stays
in place.  The loop then continues on the remaining oracle. -/
theorem try_release_step (s : AllocState) (C : List (Nat × BlockHdr))
    (ta : Nat) (tb : BlockHdr) (fuel : Nat) (bk sk : Bool)
    (rest : List (Bool × Bool))
    (hc : s.chain = C ++ [(ta, tb)]) (hta : ta ∉ C.map Prod.fst)
    (hfree : tb.is_free = true) (hmm : tb.is_mmap = false) :
    try_release_go (fuel + 1) s ((bk, sk) :: rest) =
      try_release_go fuel
        { s with chain := C, freeChain := s.freeChain.erase ta,
                 brk := if bk then ta
                        else if sk then s.brk - (HDRSZ + tb.size) else s.brk }
        rest := by
  have hlast : s.chain.getLast? = some (ta, tb) := by
    rw [hc]; exact List.getLast?_concat _
  have hdrop : (setFlag s.chain ta false).dropLast = C := by
    rw [hc, setFlag_append]
    have h1 : setFlag [(ta, tb)] ta false = [(ta, { tb with is_free := false })] := by
      simp [setFlag]
    rw [h1, List.dropLast_concat, setFlag_eq_of_not_mem C ta false hta]
  simp only [try_release_go, hlast, hfree, hmm, Bool.not_false, Bool.and_self,
    if_pos, remove_free]
  cases bk <;> cases sk <;> simp [hdrop]

/-- Witness for C8: a concrete state whose free tail at address 64 is
released with both OS primitives failing: the block leaves both chains
but the break stays at 160. -/
theorem try_release_step_witness :
    try_release_go 2
      ⟨[(0, ⟨16, false, false⟩), (64, ⟨48, true, false⟩)], [64], [], 160, fun _ => 0⟩
      [(false, false)] =
      try_release_go 1
        ⟨[(0, ⟨16, false, false⟩)], [], [], 160, fun _ => 0⟩ [] := by
  have h := try_release_step
    ⟨[(0, ⟨16, false, false⟩), (64, ⟨48, true, false⟩)], [64], [], 160, fun _ => 0⟩
    [(0, ⟨16, false, false⟩)] 64 ⟨48, true, false⟩ 1 false false []
    rfl (by decide) rfl rfl
  rw [h]
  rfl

/-! ## C9: zero_allocate guards and zeroing -/

/-- C9: `mm_calloc(count, size)` returns null when either factor is
zero, and when `count > SIZE_MAX / size`, in both cases leaving the
state untouched (no allocation attempted); otherwise it delegates to
`mm_malloc(count * size)` and, on success, the first `count * size`
bytes of the returned region are all zero. -/
theorem mm_calloc_spec (s : AllocState) (nmemb size : Nat) (os : OSOracle) :
    (nmemb = 0 ∨ size = 0 → mm_calloc s nmemb size os = (s, none)) ∧
    (0 < size → SIZE_MAX / size < nmemb → mm_calloc s nmemb size os = (s, none)) ∧
    (nmemb ≠ 0 → size ≠ 0 → nmemb ≤ SIZE_MAX / size →
      mm_calloc s nmemb size os =
        (match mm_malloc s (nmemb * size) os with
         | (s1, some p) => ({ s1 with mem := memset s1.mem p 0 (nmemb * size) }, some p)
         | (s1, none) => (s1, none)) ∧
      ∀ s' p, mm_calloc s nmemb size os = (s', some p) →
        ∀ i < nmemb * size, s'.mem (p + i) = 0) := by
  refine ⟨?_, ?_, ?_⟩
  · rintro (h | h) <;> simp [mm_calloc, h]
  · intro hs hov
    have hn : nmemb ≠ 0 := by
      intro h
      rw [h] at hov
      exact Nat.not_lt_zero _ hov
    have hs' : size ≠ 0 := Nat.pos_iff_ne_zero.mp hs
    simp [mm_calloc, hn, hs', hov]
  · intro hn hs hov
    have htot : nmemb * size % U64 = nmemb * size := by
      have h1 : nmemb * size ≤ SIZE_MAX :=
        (Nat.le_div_iff_mul_le (Nat.pos_of_ne_zero hs)).mp hov
      have h2 : SIZE_MAX < U64 := by simp [SIZE_MAX, U64]
      exact Nat.mod_eq_of_lt (by omega)
    have hnov : ¬ SIZE_MAX / size < nmemb := not_lt.mpr hov
    have hcal : mm_calloc s nmemb size os =
        (match mm_malloc s (nmemb * size) os with
         | (s1, some p) => ({ s1 with mem := memset s1.mem p 0 (nmemb * size) }, some p)
         | (s1, none) => (s1, none)) := by
      simp only [mm_calloc, hn, hs, if_neg hnov, htot]
      simp
    refine ⟨hcal, ?_⟩
    intro s' p hres i hi
    rw [hcal] at hres
    rcases hmal : mm_malloc s (nmemb * size) os with ⟨s1, r⟩
    rw [hmal] at hres
    cases r with
    | none => exact absurd hres (by simp)
    | some q =>
      simp only [Prod.mk.injEq, Option.some.injEq] at hres
      obtain ⟨hs', rfl⟩ := hres
      rw [← hs']
      simp [memset, hi]

/-- Witness for C9: `calloc(3, 5)` from the empty state succeeds and
returns a region whose first 15 bytes read zero; the zero-factor and
overflow guards fire on `(0, 5)` and `(SIZE_MAX, 2)`. -/
theorem mm_calloc_spec_witness :
    mm_calloc (initState 0) 0 5 ⟨true, true, 0⟩ = (initState 0, none) ∧
    mm_calloc (initState 0) SIZE_MAX 2 ⟨true, true, 0⟩ = (initState 0, none) ∧
    (mm_calloc (initState 0) 3 5 ⟨true, true, 0⟩).2 = some 48 ∧
    (mm_calloc (initState 0) 3 5 ⟨true, true, 0⟩).1.mem (48 + 14) = 0 := by
  have h1 := (mm_calloc_spec (initState 0) 0 5 ⟨true, true, 0⟩).1 (Or.inl rfl)
  have h2 := (mm_calloc_spec (initState 0) SIZE_MAX 2 ⟨true, true, 0⟩).2.1
    (by decide) (by norm_num [SIZE_MAX, U64])
  have h3 := ((mm_calloc_spec (initState 0) 3 5 ⟨true, true, 0⟩).2.2
    (by decide) (by decide) (by norm_num [SIZE_MAX, U64]))
  refine ⟨h1, h2, ?_, ?_⟩
  · rw [h3.1]; rfl
  · exact h3.2 _ 48 (by rw [h3.1]; rfl) 14 (by norm_num)

/-! ## C7: mmap allocations live outside the chains -/

theorem mem_removeAddr_of_ne (c : List (Nat × BlockHdr)) (a : Nat)
    (x : Nat × BlockHdr) (hx : x ∈ c) (hne : x.1 ≠ a) : x ∈ removeAddr c a := by
  induction c with
  | nil => cases hx
  | cons y c ih =>
    rcases List.mem_cons.mp hx with rfl | hx
    · simp [removeAddr, hne]
    · by_cases hy : y.1 = a <;> simp [removeAddr, hy, ih hx]

/-- C7: a request whose aligned size reaches `MMAP_THRESHOLD` takes the
mmap path: the new block is recorded only in the mmap population and
the spatial chain, free chain, break and memory are untouched, so (for
a fresh OS address) the block is on neither chain; `mm_free` of a
mapped pointer removes exactly that mapping and leaves the spatial
chain, free chain, break, memory and all other mapped blocks unchanged. -/
theorem mmap_path_spec (s : AllocState) (n : Nat) (os : OSOracle) (p : Nat)
    (rel : List (Bool × Bool)) :
    (n ≠ 0 → MMAP_THRESHOLD ≤ ALIGN_UP n → os.mmapOk = true →
      mm_malloc s n os =
        ({ s with mmaps := (os.mmapAddr, ⟨ALIGN_UP n, false, true⟩) :: s.mmaps },
          some (os.mmapAddr + HDRSZ)) ∧
      (os.mmapAddr ∉ s.chain.map Prod.fst → os.mmapAddr ∉ s.freeChain →
        os.mmapAddr ∉ (mm_malloc s n os).1.chain.map Prod.fst ∧
        os.mmapAddr ∉ (mm_malloc s n os).1.freeChain)) ∧
    (∀ mb, lookupBlock s.mmaps (p - HDRSZ) = some mb →
      mm_free s (some p) rel = { s with mmaps := removeAddr s.mmaps (p - HDRSZ) } ∧
      ∀ x ∈ s.mmaps, x.1 ≠ p - HDRSZ → x ∈ (mm_free s (some p) rel).mmaps) := by
  constructor
  · intro hn hth hok
    have hmal : mm_malloc s n os =
        ({ s with mmaps := (os.mmapAddr, ⟨ALIGN_UP n, false, true⟩) :: s.mmaps },
          some (os.mmapAddr + HDRSZ)) := by
      simp [mm_malloc, hn, hth, request_mmap, hok]
    refine ⟨hmal, ?_⟩
    intro hch hfc
    rw [hmal]
    exact ⟨hch, hfc⟩
  · intro mb hmb
    have hfr : mm_free s (some p) rel =
        { s with mmaps := removeAddr s.mmaps (p - HDRSZ) } := by
      simp [mm_free, hmb]
    refine ⟨hfr, ?_⟩
    intro x hx hne
    rw [hfr]
    exact mem_removeAddr_of_ne s.mmaps (p - HDRSZ) x hx hne

/-- Witness for C7: a 131072-byte request from a one-block heap maps a
standalone block at the oracle address 1 MiB, off both chains, and
freeing it restores the original mmap population with the heap intact. -/
theorem mmap_path_spec_witness :
    (mm_malloc ⟨[(0, ⟨16, false, false⟩)], [], [], 64, fun _ => 0⟩ 131072
        ⟨true, true, 1048576⟩).1.mmaps = [(1048576, ⟨131072, false, true⟩)] ∧
    (mm_malloc ⟨[(0, ⟨16, false, false⟩)], [], [], 64, fun _ => 0⟩ 131072
        ⟨true, true, 1048576⟩).1.chain = [(0, ⟨16, false, false⟩)] ∧
    (mm_free ⟨[(0, ⟨16, false, false⟩)], [], [(1048576, ⟨131072, false, true⟩)], 64, fun _ => 0⟩
        (some (1048576 + 48)) []).mmaps = [] ∧
    (mm_free ⟨[(0, ⟨16, false, false⟩)], [], [(1048576, ⟨131072, false, true⟩)], 64, fun _ => 0⟩
        (some (1048576 + 48)) []).chain = [(0, ⟨16, false, false⟩)] := by
  have h1 := ((mmap_path_spec ⟨[(0, ⟨16, false, false⟩)], [], [], 64, fun _ => 0⟩
    131072 ⟨true, true, 1048576⟩ 0 []).1 (by decide) (by decide) rfl).1
  have h2 := ((mmap_path_spec
    ⟨[(0, ⟨16, false, false⟩)], [], [(1048576, ⟨131072, false, true⟩)], 64, fun _ => 0⟩
    0 ⟨true, true, 0⟩ (1048576 + 48) []).2 ⟨131072, false, true⟩ (by decide)).1
  rw [h1, h2]
  refine ⟨rfl, rfl, by decide, rfl⟩

/-! ## C6: payload alignment and offset -/

/-- Dereference a header address against the whole block population
(heap chain first, then mmap blocks), as the C code's memory would. -/
def blockAt (s : AllocState) (a : Nat) : Option BlockHdr :=
  match lookupBlock s.chain a with
  | some b => some b
  | none => lookupBlock s.mmaps a

theorem lookupBlock_isSome_iff (c : List (Nat × BlockHdr)) (a : Nat) :
    (lookupBlock c a).isSome ↔ a ∈ c.map Prod.fst := by
  induction c with
  | nil => simp [lookupBlock]
  | cons x c ih =>
    by_cases hx : x.1 = a
    · rw [← hx, lookupBlock_cons_self]
      simp
    · rw [lookupBlock_cons_ne x c a hx]
      simp only [List.map_cons, List.mem_cons]
      rw [ih]
      constructor
      · exact Or.inr
      · rintro (rfl | hm)
        · exact absurd rfl hx
        · exact hm

theorem ffbGo_mem (c : List (Nat × BlockHdr)) (n : Nat) :
    ∀ fc : List Nat, ∀ a : Nat, ffbGo c n fc = some a → a ∈ fc
  | [], a, h => by simp [ffbGo] at h
  | x :: fc, a, h => by
    rw [ffbGo] at h
    cases hl : lookupBlock c x with
    | none =>
      rw [hl] at h
      exact List.mem_cons_of_mem x (ffbGo_mem c n fc a h)
    | some b =>
      rw [hl] at h
      by_cases hle : n ≤ b.size
      · have h' : some x = some a := by
          have hif : (if n ≤ b.size then some x else ffbGo c n fc) = some a := h
          rwa [if_pos hle] at hif
        injection h' with hxa
        rw [← hxa]
        exact List.mem_cons_self x fc
      · have h' : ffbGo c n fc = some a := by
          have hif : (if n ≤ b.size then some x else ffbGo c n fc) = some a := h
          rwa [if_neg hle] at hif
        exact List.mem_cons_of_mem x (ffbGo_mem c n fc a h')

theorem lookupBlock_splitChain_isSome (a n newA : Nat) (nb : BlockHdr) :
    ∀ c : List (Nat × BlockHdr), (lookupBlock c a).isSome →
      (lookupBlock (splitChain a n newA nb c) a).isSome
  | [], h => by simp [lookupBlock] at h
  | x :: c, h => by
    by_cases hx : x.1 = a
    · rw [splitChain, if_pos hx, ← hx, lookupBlock_cons_self]
      rfl
    · rw [lookupBlock_cons_ne x c a hx] at h
      rw [splitChain, if_neg hx, lookupBlock_cons_ne x _ a hx]
      exact lookupBlock_splitChain_isSome a n newA nb c h

theorem split_block_lookup_isSome (s : AllocState) (a n : Nat)
    (h : (lookupBlock s.chain a).isSome) :
    (lookupBlock (split_block s a n).chain a).isSome := by
  rw [split_block]
  cases hl : lookupBlock s.chain a with
  | none => rw [hl] at h; exact absurd h (by simp)
  | some b =>
    by_cases hsp : b.size < n + HDRSZ + MIN_SPLIT_SIZE
    · simpa [hsp] using h
    · simp only [hsp, if_false, insert_free]
      rw [lookupBlock_isSome_iff, setFlag_addrs, ← lookupBlock_isSome_iff]
      exact lookupBlock_splitChain_isSome a n _ _ s.chain h

/-- C6: a successful `mm_malloc(n)` for `n > 0` returns a pointer that
is 16-aligned and sits exactly `aligned_header_size = ALIGN_UP 48`
bytes past the header address of a block of the resulting state (the
hypothesis on the mmap oracle reflects that `mmap` returns page-aligned
addresses). -/
theorem mm_malloc_ptr_aligned (s : AllocState) (n : Nat) (os : OSOracle)
    (hwf : WF s) (hn : 0 < n) (hmaddr : os.mmapAddr % 16 = 0) :
    ∀ s' p, mm_malloc s n os = (s', some p) →
      p % 16 = 0 ∧ ∃ a b, blockAt s' a = some b ∧ p = a + ALIGN_UP 48 := by
  intro s' p h
  have hn0 : ¬ n = 0 := Nat.pos_iff_ne_zero.mp hn
  have h48 : HDRSZ = 48 := HDRSZ_eq
  rw [mm_malloc, if_neg hn0] at h
  by_cases hth : MMAP_THRESHOLD ≤ ALIGN_UP n
  · rw [if_pos hth] at h
    cases hok : os.mmapOk
    · rw [hok] at h
      simp [request_mmap] at h
    · rw [hok] at h
      simp only [request_mmap, if_pos, Prod.mk.injEq, Option.some.injEq] at h
      obtain ⟨rfl, rfl⟩ := h
      constructor
      · omega
      · refine ⟨os.mmapAddr, ?_⟩
        cases hc : lookupBlock s.chain os.mmapAddr with
        | some cb => exact ⟨cb, by simp [blockAt, hc], rfl⟩
        | none =>
          refine ⟨⟨ALIGN_UP n, false, true⟩, ?_, rfl⟩
          simp only [blockAt, hc]
          exact lookupBlock_cons_self (os.mmapAddr, ⟨ALIGN_UP n, false, true⟩) s.mmaps
  · rw [if_neg hth] at h
    cases hf : find_free_block s (ALIGN_UP n) with
    | some a =>
      rw [hf] at h
      simp only [Prod.mk.injEq, Option.some.injEq] at h
      obtain ⟨rfl, rfl⟩ := h
      unfold find_free_block at hf
      have hafc : a ∈ s.freeChain := ffbGo_mem s.chain (ALIGN_UP n) s.freeChain a hf
      obtain ⟨b, hbmem, -⟩ := hwf.freeSub a hafc
      have ha16 : a % 16 = 0 := hwf.addrAligned (a, b) hbmem
      constructor
      · omega
      · have hsome : (lookupBlock s.chain a).isSome := by
          rw [lookupBlock_isSome_iff]
          exact List.mem_map_of_mem Prod.fst hbmem
        have hsome1 : (lookupBlock (remove_free s a).chain a).isSome := by
          simp only [remove_free]
          rw [lookupBlock_isSome_iff, setFlag_addrs, ← lookupBlock_isSome_iff]
          exact hsome
        have hsome2 := split_block_lookup_isSome (remove_free s a) a (ALIGN_UP n) hsome1
        obtain ⟨b', hb'⟩ := Option.isSome_iff_exists.mp hsome2
        exact ⟨a, b', by simp [blockAt, hb'], rfl⟩
    | none =>
      rw [hf] at h
      cases hok : os.sbrkOk
      · rw [hok] at h
        simp [request_space_sbrk] at h
      · rw [hok] at h
        simp only [request_space_sbrk, if_pos, Prod.mk.injEq, Option.some.injEq] at h
        obtain ⟨rfl, rfl⟩ := h
        have hb16 : s.brk % 16 = 0 := hwf.brkAligned
        constructor
        · omega
        · have hsom : (lookupBlock (s.chain ++ [(s.brk, ⟨ALIGN_UP n, false, false⟩)]) s.brk).isSome := by
            rw [lookupBlock_isSome_iff]
            simp
          obtain ⟨b', hb'⟩ := Option.isSome_iff_exists.mp hsom
          exact ⟨s.brk, b', by simp [blockAt, hb'], rfl⟩

/-- Witness for C6: allocating 100 bytes from a well-formed one-block
heap returns pointer 208 = 160 + 48, which is 16-aligned. -/
theorem mm_malloc_ptr_aligned_witness :
    mm_malloc ⟨[(0, ⟨96, false, false⟩)], [], [], 160, fun _ => 0⟩ 100
        ⟨true, true, 1048576⟩ =
      (⟨[(0, ⟨96, false, false⟩), (160, ⟨112, false, false⟩)], [], [], 320, fun _ => 0⟩,
        some 208) ∧
    208 % 16 = 0 ∧
    ∃ a b, blockAt
      (⟨[(0, ⟨96, false, false⟩), (160, ⟨112, false, false⟩)], [], [], 320, fun _ => 0⟩ :
        AllocState) a = some b ∧ 208 = a + ALIGN_UP 48 := by
  have hmal : mm_malloc ⟨[(0, ⟨96, false, false⟩)], [], [], 160, fun _ => 0⟩ 100
      ⟨true, true, 1048576⟩ =
      (⟨[(0, ⟨96, false, false⟩), (160, ⟨112, false, false⟩)], [], [], 320, fun _ => 0⟩,
        some 208) := rfl
  have hwf : WF ⟨[(0, ⟨96, false, false⟩)], [], [], 160, fun _ => 0⟩ := by
    refine ⟨?_, ?_, ?_, ?_, ?_, ?_, ?_, ?_, ?_, ?_⟩ <;> first
      | exact List.pairwise_singleton _ _
      | decide
      | simp
  have h := mm_malloc_ptr_aligned ⟨[(0, ⟨96, false, false⟩)], [], [], 160, fun _ => 0⟩
    100 ⟨true, true, 1048576⟩ hwf (by norm_num) (by decide) _ _ hmal
  exact ⟨hmal, h.1, h.2⟩

/-! ## C10: malloc postconditions -/

theorem gapR_fst_lt {x y : Nat × BlockHdr} (h : gapR x y) : x.1 < y.1 := by
  have h48 : HDRSZ = 48 := HDRSZ_eq
  simp only [gapR] at h
  omega

theorem Spaced.nodup_fst {c : List (Nat × BlockHdr)} (h : Spaced c) :
    (c.map Prod.fst).Nodup := by
  rw [List.Nodup, List.pairwise_map]
  exact h.imp (fun hxy => Nat.ne_of_lt (gapR_fst_lt hxy))

theorem lookupBlock_of_mem_nodup {c : List (Nat × BlockHdr)} {a : Nat}
    {b : BlockHdr} (hnd : (c.map Prod.fst).Nodup) (hm : (a, b) ∈ c) :
    lookupBlock c a = some b := by
  induction c with
  | nil => cases hm
  | cons x c ih =>
    simp only [List.map_cons, List.nodup_cons] at hnd
    rcases List.mem_cons.mp hm with rfl | hm
    · exact lookupBlock_cons_self (a, b) c
    · have hxa : x.1 ≠ a := by
        intro he
        exact hnd.1 (he ▸ List.mem_map_of_mem Prod.fst hm)
      rw [lookupBlock_cons_ne x c a hxa]
      exact ih hnd.2 hm

theorem lookupBlock_setFlag_self {c : List (Nat × BlockHdr)} {a : Nat}
    {b : BlockHdr} (fl : Bool) (h : lookupBlock c a = some b) :
    lookupBlock (setFlag c a fl) a = some { b with is_free := fl } := by
  induction c with
  | nil => simp [lookupBlock] at h
  | cons x c ih =>
    by_cases hx : x.1 = a
    · rw [← hx, lookupBlock_cons_self] at h
      injection h with hb
      rw [setFlag, if_pos hx, ← hx]
      rw [show ((x.1, { x.2 with is_free := fl }) :: setFlag c x.1 fl) =
        ((x.1, { x.2 with is_free := fl })) :: setFlag c x.1 fl from rfl]
      rw [lookupBlock_cons_self (x.1, { x.2 with is_free := fl }) _]
      rw [hb]
    · rw [lookupBlock_cons_ne x c a hx] at h
      rw [setFlag, if_neg hx, lookupBlock_cons_ne x _ a hx]
      exact ih h

theorem lookupBlock_setFlag_ne (c : List (Nat × BlockHdr)) (x a : Nat)
    (fl : Bool) (hne : x ≠ a) :
    lookupBlock (setFlag c x fl) a = lookupBlock c a := by
  induction c with
  | nil => rfl
  | cons y c ih =>
    by_cases hy : y.1 = x
    · rw [setFlag, if_pos hy, lookupBlock_cons_ne _ _ a (by simpa [hy] using hne),
        lookupBlock_cons_ne y c a (by rw [hy]; exact hne), ih]
    · rw [setFlag, if_neg hy]
      by_cases hya : y.1 = a
      · rw [← hya, lookupBlock_cons_self, lookupBlock_cons_self]
      · rw [lookupBlock_cons_ne _ _ a hya, lookupBlock_cons_ne y c a hya, ih]

theorem lookupBlock_splitChain_self {c : List (Nat × BlockHdr)} {a : Nat}
    {b : BlockHdr} (n newA : Nat) (nb : BlockHdr)
    (h : lookupBlock c a = some b) :
    lookupBlock (splitChain a n newA nb c) a = some { b with size := n } := by
  induction c with
  | nil => simp [lookupBlock] at h
  | cons x c ih =>
    by_cases hx : x.1 = a
    · rw [← hx, lookupBlock_cons_self] at h
      injection h with hb
      rw [splitChain, if_pos hx, ← hx,
        lookupBlock_cons_self (x.1, { x.2 with size := n }) _, hb]
    · rw [lookupBlock_cons_ne x c a hx] at h
      rw [splitChain, if_neg hx, lookupBlock_cons_ne x _ a hx]
      exact ih h

/-- C10: a successful `mm_malloc(n)` for `0 < n` (alignment computed
without wraparound), from a well-formed state and with a fresh mmap
oracle address, returns a pointer whose block has `is_free` cleared,
has `is_mmap` set exactly when `ALIGN_UP n ≥ MMAP_THRESHOLD`, and
records a size of at least `ALIGN_UP n` bytes. -/
theorem mm_malloc_block_flags (s : AllocState) (n : Nat) (os : OSOracle)
    (hwf : WF s) (hn : 0 < n) (hnw : n + 15 < U64)
    (hfresh : os.mmapAddr ∉ s.chain.map Prod.fst) :
    ∀ s' p, mm_malloc s n os = (s', some p) →
      ∃ b, blockAt s' (p - HDRSZ) = some b ∧ b.is_free = false ∧
        (b.is_mmap = true ↔ MMAP_THRESHOLD ≤ ALIGN_UP n) ∧
        ALIGN_UP n ≤ b.size := by
  intro s' p h
  have hn0 : ¬ n = 0 := Nat.pos_iff_ne_zero.mp hn
  have h48 : HDRSZ = 48 := HDRSZ_eq
  rw [mm_malloc, if_neg hn0] at h
  by_cases hth : MMAP_THRESHOLD ≤ ALIGN_UP n
  · rw [if_pos hth] at h
    cases hok : os.mmapOk
    · rw [hok] at h
      simp [request_mmap] at h
    · rw [hok] at h
      simp only [request_mmap, if_pos, Prod.mk.injEq, Option.some.injEq] at h
      obtain ⟨rfl, rfl⟩ := h
      have hsub : os.mmapAddr + HDRSZ - HDRSZ = os.mmapAddr := by omega
      refine ⟨⟨ALIGN_UP n, false, true⟩, ?_, rfl, iff_of_true rfl hth, le_refl _⟩
      rw [hsub]
      simp only [blockAt, lookupBlock_eq_none s.chain os.mmapAddr hfresh]
      exact lookupBlock_cons_self (os.mmapAddr, ⟨ALIGN_UP n, false, true⟩) s.mmaps
  · rw [if_neg hth] at h
    cases hf : find_free_block s (ALIGN_UP n) with
    | some a =>
      rw [hf] at h
      simp only [Prod.mk.injEq, Option.some.injEq] at h
      obtain ⟨rfl, rfl⟩ := h
      unfold find_free_block at hf
      have hres : ∀ x ∈ s.freeChain, (lookupBlock s.chain x).isSome := by
        intro x hx
        obtain ⟨b, hb, -⟩ := hwf.freeSub x hx
        rw [lookupBlock_isSome_iff]
        exact List.mem_map_of_mem Prod.fst hb
      obtain ⟨l1, l2, hfc, hsz, -⟩ :=
        (ffbGo_some_iff s.chain (ALIGN_UP n) a s.freeChain hres).mp hf
      have hafc : a ∈ s.freeChain := by rw [hfc]; simp
      obtain ⟨b, hbmem, -⟩ := hwf.freeSub a hafc
      have hlook : lookupBlock s.chain a = some b :=
        lookupBlock_of_mem_nodup hwf.spaced.nodup_fst hbmem
      have hble : ALIGN_UP n ≤ b.size := by
        rw [blkSize, hlook] at hsz
        simpa using hsz
      have hbmm : b.is_mmap = false := hwf.noMmap (a, b) hbmem
      have hsub : a + HDRSZ - HDRSZ = a := by omega
      have hlook1 : lookupBlock (remove_free s a).chain a =
          some { b with is_free := false } :=
        lookupBlock_setFlag_self false hlook
      by_cases hsp : b.size < ALIGN_UP n + HDRSZ + MIN_SPLIT_SIZE
      · have hred : split_block (remove_free s a) a (ALIGN_UP n) = remove_free s a := by
          simp only [split_block, hlook1]
          rw [if_pos (by simpa using hsp)]
        rw [hred, hsub]
        refine ⟨{ b with is_free := false }, ?_, rfl,
          iff_of_false (by simp [hbmm]) hth, hble⟩
        simp only [blockAt, hlook1]
      · have hred : split_block (remove_free s a) a (ALIGN_UP n) =
            insert_free { remove_free s a with
              chain := splitChain a (ALIGN_UP n) (a + HDRSZ + ALIGN_UP n)
                ⟨b.size - ALIGN_UP n - HDRSZ, true, false⟩ (remove_free s a).chain }
              (a + HDRSZ + ALIGN_UP n) := by
          simp only [split_block, hlook1]
          rw [if_neg (by simpa using hsp)]
        rw [hred, hsub]
        refine ⟨{ b with is_free := false, size := ALIGN_UP n }, ?_, rfl,
          iff_of_false (by simp [hbmm]) hth, le_refl _⟩
        simp only [blockAt, insert_free]
        have hane : a + HDRSZ + ALIGN_UP n ≠ a := by omega
        rw [lookupBlock_setFlag_ne _ _ a true hane,
          lookupBlock_splitChain_self (ALIGN_UP n) _ _ hlook1]
    | none =>
      rw [hf] at h
      cases hok : os.sbrkOk
      · rw [hok] at h
        simp [request_space_sbrk] at h
      · rw [hok] at h
        simp only [request_space_sbrk, if_pos, Prod.mk.injEq, Option.some.injEq] at h
        obtain ⟨rfl, rfl⟩ := h
        have hbrkmem : s.brk ∉ s.chain.map Prod.fst := by
          intro hmem
          obtain ⟨x, hx, hfst⟩ := List.mem_map.mp hmem
          have := hwf.brkHi x hx
          omega
        have hsub : s.brk + HDRSZ - HDRSZ = s.brk := by omega
        refine ⟨⟨ALIGN_UP n, false, false⟩, ?_, rfl,
          iff_of_false (by simp) hth, le_refl _⟩
        rw [hsub]
        simp only [blockAt]
        rw [show s.chain ++ [(s.brk, (⟨ALIGN_UP n, false, false⟩ : BlockHdr))] =
          s.chain ++ (s.brk, (⟨ALIGN_UP n, false, false⟩ : BlockHdr)) :: [] from rfl,
          lookupBlock_append_cons s.chain [] s.brk _ hbrkmem]

/-- Witness for C10: allocating 50 bytes reuses the free 96-byte block
at address 0: the returned block is live, unmapped (50's aligned size
64 is below the threshold) and at least 64 bytes. -/
theorem mm_malloc_block_flags_witness :
    mm_malloc ⟨[(0, ⟨96, true, false⟩)], [0], [], 144, fun _ => 0⟩ 50
        ⟨true, true, 1048576⟩ =
      (⟨[(0, ⟨96, false, false⟩)], [], [], 144, fun _ => 0⟩, some 48) ∧
    ∃ b, blockAt (⟨[(0, ⟨96, false, false⟩)], [], [], 144, fun _ => 0⟩ : AllocState)
        (48 - HDRSZ) = some b ∧ b.is_free = false ∧
      (b.is_mmap = true ↔ MMAP_THRESHOLD ≤ ALIGN_UP 50) ∧ ALIGN_UP 50 ≤ b.size := by
  have hwf : WF ⟨[(0, ⟨96, true, false⟩)], [0], [], 144, fun _ => 0⟩ := by
    refine ⟨List.pairwise_singleton _ _, ?_, ?_, ?_, ?_, ?_, ?_, ?_, ?_, ?_⟩ <;>
      first
        | decide
        | (intro x hx
           simp only [List.mem_singleton] at hx
           subst hx
           exact ⟨⟨96, true, false⟩, by simp, rfl⟩)
  have hmal : mm_malloc ⟨[(0, ⟨96, true, false⟩)], [0], [], 144, fun _ => 0⟩ 50
      ⟨true, true, 1048576⟩ =
      (⟨[(0, ⟨96, false, false⟩)], [], [], 144, fun _ => 0⟩, some 48) := rfl
  refine ⟨hmal, ?_⟩
  exact mm_malloc_block_flags ⟨[(0, ⟨96, true, false⟩)], [0], [], 144, fun _ => 0⟩
    50 ⟨true, true, 1048576⟩ hwf (by norm_num) (by norm_num [U64]) (by decide)
    _ 48 hmal

/-! ## C1: the no-adjacent-free-pair invariant -/

/-- The adjacency relation of `NoAdjFree`. -/
def nafR (x y : Nat × BlockHdr) : Prop :=
  x.2.is_free = false ∨ y.2.is_free = false

theorem NoAdjFree_def (c : List (Nat × BlockHdr)) :
    NoAdjFree c = List.Chain' nafR c := rfl

theorem setFlag_eq_map (c : List (Nat × BlockHdr)) (a : Nat) (fl : Bool) :
    setFlag c a fl =
      c.map (fun y => if y.1 = a then (y.1, { y.2 with is_free := fl }) else y) := by
  induction c with
  | nil => rfl
  | cons x c ih => rw [setFlag, List.map_cons, ih]

theorem noAdj_setFlag_false (c : List (Nat × BlockHdr)) (a : Nat)
    (h : NoAdjFree c) : NoAdjFree (setFlag c a false) := by
  rw [NoAdjFree_def, setFlag_eq_map, List.chain'_map]
  refine h.imp ?_
  intro x y hxy
  rcases hxy with hx | hy
  · left
    by_cases h1 : x.1 = a <;> simp [h1, hx]
  · right
    by_cases h1 : y.1 = a <;> simp [h1, hy]

theorem noAdj_dropLast (c : List (Nat × BlockHdr)) (h : NoAdjFree c) :
    NoAdjFree c.dropLast := by
  cases hl : c.getLast? with
  | none =>
    rw [List.getLast?_eq_none_iff] at hl
    subst hl
    exact h
  | some x =>
    have hc : c.dropLast ++ [x] = c := List.dropLast_append_getLast? x hl
    rw [NoAdjFree_def] at h ⊢
    rw [← hc] at h
    exact (List.chain'_append.mp h).1

theorem noAdj_append_single (c : List (Nat × BlockHdr)) (x : Nat × BlockHdr)
    (h : NoAdjFree c) (hx : x.2.is_free = false) : NoAdjFree (c ++ [x]) := by
  rw [NoAdjFree_def, List.chain'_append]
  exact ⟨h, List.chain'_singleton x, fun u _ y hy => by
    simp only [List.head?_cons, Option.mem_def, Option.some.injEq] at hy
    exact Or.inr (hy ▸ hx)⟩

theorem try_release_go_succ (fuel : Nat) (s : AllocState) (os : List (Bool × Bool)) :
    try_release_go (fuel + 1) s os =
      match s.chain.getLast? with
      | none => s
      | some (ta, tb) =>
        if tb.is_free && !tb.is_mmap then
          let s1 := remove_free s ta
          let s2 := { s1 with chain := s1.chain.dropLast }
          let total := HDRSZ + tb.size
          let step := match os with
            | [] => (((false : Bool), (false : Bool)), ([] : List (Bool × Bool)))
            | o :: rest => (o, rest)
          let s3 :=
            if step.1.1 then { s2 with brk := ta }
            else if step.1.2 then { s2 with brk := s2.brk - total }
            else s2
          try_release_go fuel s3 step.2
        else s := rfl

theorem noAdj_try_release_go (fuel : Nat) :
    ∀ (s : AllocState) (os : List (Bool × Bool)), NoAdjFree s.chain →
      NoAdjFree (try_release_go fuel s os).chain := by
  induction fuel with
  | zero => intro s os h; exact h
  | succ fuel ih =>
    intro s os h
    rw [try_release_go_succ]
    cases hl : s.chain.getLast? with
    | none => exact h
    | some t =>
      rcases t with ⟨ta, tb⟩
      simp only
      by_cases hcond : tb.is_free && !tb.is_mmap
      · rw [if_pos hcond]
        have hstep : NoAdjFree ((setFlag s.chain ta false).dropLast) :=
          noAdj_dropLast _ (noAdj_setFlag_false s.chain ta h)
        cases os with
        | nil => exact ih _ _ hstep
        | cons o rest =>
          simp only
          by_cases h1 : o.1 = true
          · simp only [h1, if_true]
            exact ih _ _ hstep
          · simp only [h1, if_false]
            by_cases h2 : o.2 = true
            · simp only [h2, if_true]
              exact ih _ _ hstep
            · simp only [h2, if_false]
              exact ih _ _ hstep
      · rw [if_neg hcond]
        exact h

theorem noAdj_try_release (s : AllocState) (os : List (Bool × Bool))
    (h : NoAdjFree s.chain) : NoAdjFree (try_release_memory_to_os s os).chain :=
  noAdj_try_release_go s.chain.length s os h

/-- Decomposes `Spaced` around one designated entry. -/
theorem Spaced.decomp {L R : List (Nat × BlockHdr)} {e : Nat × BlockHdr}
    (h : Spaced (L ++ e :: R)) :
    (∀ x ∈ L, gapR x e) ∧ (∀ y ∈ R, gapR e y) ∧ Spaced L ∧ Spaced (e :: R) := by
  rw [Spaced, List.pairwise_append] at h
  obtain ⟨hL, hcons, hcross⟩ := h
  rw [List.pairwise_cons] at hcons
  exact ⟨fun x hx => hcross x hx e (List.mem_cons_self e R),
    hcons.1, hL, List.pairwise_cons.mpr hcons⟩

theorem nodup_fst_decomp {L R : List (Nat × BlockHdr)} {a : Nat} {b : BlockHdr}
    (h : ((L ++ (a, b) :: R).map Prod.fst).Nodup) :
    a ∉ L.map Prod.fst ∧ a ∉ R.map Prod.fst := by
  rw [List.map_append, List.map_cons, List.nodup_middle, List.nodup_cons,
    List.mem_append] at h
  exact ⟨fun hm => h.1 (Or.inl hm), fun hm => h.1 (Or.inr hm)⟩

theorem coalesce_with_next_cases (s : AllocState) (a : Nat) :
    (∀ L R na nb b, s.chain = L ++ (a, b) :: (na, nb) :: R →
      a ∉ L.map Prod.fst → a ≠ na → a ∉ R.map Prod.fst →
      na ∉ L.map Prod.fst → na ∉ R.map Prod.fst →
      nb.is_free = true → nb.is_mmap = false →
      coalesce_with_next s a =
        { s with chain := L ++ (a, { b with size := b.size + HDRSZ + nb.size }) :: R,
                 freeChain := s.freeChain.erase na }) ∧
    (∀ L R na nb b, s.chain = L ++ (a, b) :: (na, nb) :: R →
      a ∉ L.map Prod.fst →
      (nb.is_free = false ∨ nb.is_mmap = true) →
      coalesce_with_next s a = s) ∧
    (∀ L b, s.chain = L ++ [(a, b)] → a ∉ L.map Prod.fst →
      coalesce_with_next s a = s) := by
  refine ⟨?_, ?_, ?_⟩
  · intro L R na nb b hc haL hana haR hnaL hnaR hfree hmm
    have hnext : nextOf s.chain a = some (na, nb) := by
      rw [hc, nextOf_append_cons L _ a b haL]
      rfl
    have hlook : lookupBlock s.chain a = some b := by
      rw [hc]; exact lookupBlock_append_cons _ _ _ _ haL
    have hbsz : blkSize s.chain a = b.size := by simp [blkSize, hlook]
    simp only [coalesce_with_next, hnext, hfree, hmm, Bool.not_false, Bool.and_self,
      if_pos, remove_free, hbsz]
    refine AllocState.ext ?_ rfl rfl rfl rfl
    simp only
    rw [hc, setFlag_mid L R a na b nb false hnaL hnaR hana]
    have haR' : a ∉ ((na, { nb with is_free := false }) :: R).map Prod.fst := by
      simp only [List.map_cons, List.mem_cons, not_or]
      exact ⟨hana, haR⟩
    rw [setSize_single L _ a b (b.size + HDRSZ + nb.size) haL haR']
    rw [show L ++ (a, { b with size := b.size + HDRSZ + nb.size }) ::
        (na, { nb with is_free := false }) :: R =
      (L ++ [(a, { b with size := b.size + HDRSZ + nb.size })]) ++
        (na, { nb with is_free := false }) :: R by simp]
    rw [removeAddr_single _ R na _ (mem_map_fst_append_cons hnaL (Ne.symm hana)) hnaR]
    simp
  · intro L R na nb b hc haL hcond
    have hnext : nextOf s.chain a = some (na, nb) := by
      rw [hc, nextOf_append_cons L _ a b haL]
      rfl
    have hcond' : (nb.is_free && !nb.is_mmap) = false := by
      rcases hcond with h | h <;> simp [h]
    simp only [coalesce_with_next, hnext, hcond', Bool.false_eq_true, if_false]
  · intro L b hc haL
    have hnext : nextOf s.chain a = none := by
      rw [hc, nextOf_append_cons L [] a b haL]
      rfl
    simp only [coalesce_with_next, hnext]

theorem noAdj_mm_malloc (s : AllocState) (n : Nat) (os : OSOracle)
    (hwf : WF s) (h : NoAdjFree s.chain) : NoAdjFree (mm_malloc s n os).1.chain := by
  by_cases hn0 : n = 0
  · simp [mm_malloc, hn0, h]
  · rw [mm_malloc, if_neg hn0]
    by_cases hth : MMAP_THRESHOLD ≤ ALIGN_UP n
    · rw [if_pos hth]
      cases hok : os.mmapOk <;> simp [request_mmap, h]
    · rw [if_neg hth]
      cases hf : find_free_block s (ALIGN_UP n) with
      | none =>
        cases hok : os.sbrkOk
        · simp [request_space_sbrk, h]
        · simp only [request_space_sbrk, if_pos]
          exact noAdj_append_single _ _ h rfl
      | some a =>
        show NoAdjFree (split_block (remove_free s a) a (ALIGN_UP n)).chain
        unfold find_free_block at hf
        have hafc : a ∈ s.freeChain := ffbGo_mem s.chain (ALIGN_UP n) s.freeChain a hf
        obtain ⟨b, hbmem, hbfree⟩ := hwf.freeSub a hafc
        obtain ⟨L, R, hc⟩ := List.append_of_mem hbmem
        have hnd : ((L ++ (a, b) :: R).map Prod.fst).Nodup := by
          rw [← hc]; exact hwf.spaced.nodup_fst
        obtain ⟨haL, haR⟩ := nodup_fst_decomp hnd
        have hsp : Spaced (L ++ (a, b) :: R) := by rw [← hc]; exact hwf.spaced
        obtain ⟨hgapL, hgapR, -, -⟩ := hsp.decomp
        have hlook : lookupBlock s.chain a = some b := by
          rw [hc]; exact lookupBlock_append_cons _ _ _ _ haL
        have hlook1 : lookupBlock (remove_free s a).chain a =
            some { b with is_free := false } :=
          lookupBlock_setFlag_self false hlook
        have h48 : HDRSZ = 48 := HDRSZ_eq
        rw [hc] at h
        rw [NoAdjFree_def, List.chain'_append] at h
        obtain ⟨hLc, hconsR, hcross⟩ := h
        rw [List.chain'_cons'] at hconsR
        obtain ⟨hhead, hRc⟩ := hconsR
        have hheadR : ∀ y ∈ R.head?, y.2.is_free = false := by
          intro y hy
          rcases hhead y hy with h1 | h1
          · rw [hbfree] at h1; cases h1
          · exact h1
        by_cases hsplit : b.size < ALIGN_UP n + HDRSZ + MIN_SPLIT_SIZE
        · have hred : split_block (remove_free s a) a (ALIGN_UP n) = remove_free s a := by
            simp only [split_block, hlook1]
            rw [if_pos (by simpa using hsplit)]
          rw [hred]
          exact noAdj_setFlag_false s.chain a (by
            rw [hc, NoAdjFree_def, List.chain'_append]
            exact ⟨hLc, List.chain'_cons'.mpr ⟨hhead, hRc⟩, hcross⟩)
        · have hred : split_block (remove_free s a) a (ALIGN_UP n) =
              insert_free { remove_free s a with
                chain := splitChain a (ALIGN_UP n) (a + HDRSZ + ALIGN_UP n)
                  ⟨b.size - ALIGN_UP n - HDRSZ, true, false⟩ (remove_free s a).chain }
                (a + HDRSZ + ALIGN_UP n) := by
            simp only [split_block, hlook1]
            rw [if_neg (by simpa using hsplit)]
          rw [hred]
          simp only [insert_free, remove_free]
          rw [hc, setFlag_single L R a b false haL haR,
            splitChain_spec L R a _ (ALIGN_UP n) (a + HDRSZ + ALIGN_UP n) _ haL]
          have hnewL : a + HDRSZ + ALIGN_UP n ∉ L.map Prod.fst := by
            intro hm
            obtain ⟨x, hx, hfst⟩ := List.mem_map.mp hm
            have := gapR_fst_lt (hgapL x hx)
            omega
          have hnewR : a + HDRSZ + ALIGN_UP n ∉ R.map Prod.fst := by
            intro hm
            obtain ⟨y, hy, hfst⟩ := List.mem_map.mp hm
            have hg := hgapR y hy
            simp only [gapR] at hg
            simp only [MIN_SPLIT_SIZE] at hsplit
            omega
          have hane : a ≠ a + HDRSZ + ALIGN_UP n := by omega
          rw [setFlag_mid L R a (a + HDRSZ + ALIGN_UP n) _ _ true hnewL hnewR hane]
          rw [NoAdjFree_def, List.chain'_append]
          refine ⟨hLc, ?_, ?_⟩
          · rw [List.chain'_cons']
            refine ⟨?_, ?_⟩
            · intro y hy
              exact Or.inl rfl
            · rw [List.chain'_cons']
              exact ⟨fun y hy => Or.inr (hheadR y hy), hRc⟩
          · intro u hu y hy
            simp only [List.head?_cons, Option.mem_def, Option.some.injEq] at hy
            rw [← hy]
            exact Or.inr rfl

/-- A valid argument for `mm_free` / `mm_realloc`: null, a mapped
pointer, or a live (not yet freed) heap pointer.  Anything else is
undefined behaviour in the C source. -/
def ValidPtr (s : AllocState) (p : Option Nat) : Prop :=
  match p with
  | none => True
  | some ptr =>
    (lookupBlock s.mmaps (ptr - HDRSZ)).isSome ∨
    (lookupBlock s.mmaps (ptr - HDRSZ) = none ∧
      ∃ b, (ptr - HDRSZ, b) ∈ s.chain ∧ b.is_free = false)

theorem noAdj_prev_stage (S : AllocState) (a : Nat) (L R2 : List (Nat × BlockHdr))
    (B2 : BlockHdr)
    (hmmL : ∀ x ∈ L, x.2.is_mmap = false)
    (hchain : S.chain = L ++ (a, B2) :: R2)
    (haL : a ∉ L.map Prod.fst) (haR : a ∉ R2.map Prod.fst)
    (hnd : ((L ++ (a, B2) :: R2).map Prod.fst).Nodup)
    (hLc : List.Chain' nafR L)
    (hR2c : List.Chain' nafR R2)
    (hheadR : ∀ y ∈ R2.head?, y.2.is_free = false) :
    NoAdjFree ((coalesce_with_prev S a).1).chain := by
  rcases List.eq_nil_or_concat L with rfl | ⟨L2, pae, hLeq⟩
  · have h3 := (coalesce_with_prev_cases S a).2.2 R2 B2 (by simpa using hchain) haR
    rw [h3]
    rw [NoAdjFree_def, hchain, List.nil_append, List.chain'_cons']
    exact ⟨fun y hy => Or.inr (hheadR y hy), hR2c⟩
  · rw [List.concat_eq_append] at hLeq
    subst hLeq
    rcases pae with ⟨pa, pb⟩
    have hchain' : S.chain = L2 ++ (pa, pb) :: (a, B2) :: R2 := by
      rw [hchain]; simp
    have haL' : a ∉ L2.map Prod.fst ∧ ¬ a = pa := by
      simp only [List.map_append, List.map_cons, List.map_nil, List.mem_append,
        List.mem_cons, List.not_mem_nil, or_false, not_or] at haL
      exact haL
    have haL2 : a ∉ L2.map Prod.fst := haL'.1
    have hapa : a ≠ pa := haL'.2
    have h2nd : ((L2.map Prod.fst) ++ pa :: (a :: R2.map Prod.fst)).Nodup := by
      have h0 := hnd
      simp only [List.map_append, List.map_cons, List.map_nil, List.append_assoc,
        List.cons_append, List.nil_append, List.singleton_append] at h0
      exact h0
    rw [List.nodup_middle, List.nodup_cons] at h2nd
    have hpaL2 : pa ∉ L2.map Prod.fst :=
      fun hm => h2nd.1 (List.mem_append.mpr (Or.inl hm))
    have hpaR2 : pa ∉ R2.map Prod.fst :=
      fun hm => h2nd.1 (List.mem_append.mpr (Or.inr (List.mem_cons_of_mem a hm)))
    have hpbmm : pb.is_mmap = false := hmmL (pa, pb) (by simp)
    have hL2c : List.Chain' nafR L2 := (List.chain'_append.mp hLc).1
    have hL2cross : ∀ u ∈ L2.getLast?, nafR u (pa, pb) := by
      intro u hu
      exact (List.chain'_append.mp hLc).2.2 u hu (pa, pb) (by simp)
    by_cases hpbf : pb.is_free = true
    · have h3 := (coalesce_with_prev_cases S a).1 L2 R2 pa pb B2 hchain'
        haL2 hapa haR hpaL2 hpaR2 hpbf hpbmm
      rw [h3]
      rw [NoAdjFree_def]
      simp only
      rw [List.chain'_append]
      refine ⟨hL2c, ?_, ?_⟩
      · rw [List.chain'_cons']
        exact ⟨fun y hy => Or.inr (hheadR y hy), hR2c⟩
      · intro u hu y hy
        simp only [List.head?_cons, Option.mem_def, Option.some.injEq] at hy
        rw [← hy]
        rcases hL2cross u hu with h1 | h1
        · exact Or.inl h1
        · rw [hpbf] at h1; cases h1
    · have hpbf' : pb.is_free = false := by
        cases hh : pb.is_free
        · rfl
        · exact absurd hh hpbf
      have h3 := (coalesce_with_prev_cases S a).2.1 L2 R2 pa pb B2 hchain'
        haL2 hapa haR (Or.inl hpbf')
      rw [h3]
      rw [NoAdjFree_def, hchain', List.chain'_append]
      refine ⟨hL2c, ?_, ?_⟩
      · rw [List.chain'_cons', List.chain'_cons']
        refine ⟨?_, fun y hy => Or.inr (hheadR y hy), hR2c⟩
        intro y hy
        simp only [List.head?_cons, Option.mem_def, Option.some.injEq] at hy
        rw [← hy]
        exact Or.inl hpbf'
      · intro u hu y hy
        simp only [List.head?_cons, Option.mem_def, Option.some.injEq] at hy
        rw [← hy]
        rcases hL2cross u hu with h1 | h1
        · exact Or.inl h1
        · exact Or.inr h1

theorem noAdj_free_core (s : AllocState) (a : Nat) (rel : List (Bool × Bool))
    (hwf : WF s) (h : NoAdjFree s.chain) (b : BlockHdr)
    (hbmem : (a, b) ∈ s.chain) :
    NoAdjFree (try_release_memory_to_os
      ((coalesce_with_prev (coalesce_with_next (insert_free s a) a) a).1) rel).chain := by
  apply noAdj_try_release
  obtain ⟨L, R, hc⟩ := List.append_of_mem hbmem
  have hnd : ((L ++ (a, b) :: R).map Prod.fst).Nodup := by
    rw [← hc]; exact hwf.spaced.nodup_fst
  obtain ⟨haL, haR⟩ := nodup_fst_decomp hnd
  rw [hc, NoAdjFree_def, List.chain'_append] at h
  obtain ⟨hLc, hconsR, hcross⟩ := h
  rw [List.chain'_cons'] at hconsR
  obtain ⟨hhead, hRc⟩ := hconsR
  have hchain1 : (insert_free s a).chain = L ++ (a, { b with is_free := true }) :: R := by
    simp only [insert_free]
    rw [hc, setFlag_single L R a b true haL haR]
  have hmmL : ∀ x ∈ L, x.2.is_mmap = false := fun x hx =>
    hwf.noMmap x (by rw [hc]; exact List.mem_append.mpr (Or.inl hx))
  cases R with
  | nil =>
    have h2 : coalesce_with_next (insert_free s a) a = insert_free s a :=
      (coalesce_with_next_cases (insert_free s a) a).2.2 L _ hchain1 haL
    rw [h2]
    exact noAdj_prev_stage (insert_free s a) a L [] { b with is_free := true }
      hmmL hchain1 haL (by simp) (by simpa using hnd) hLc List.chain'_nil (by simp)
  | cons x R' =>
    rcases x with ⟨na, nb⟩
    have haR' : ¬ a = na ∧ a ∉ R'.map Prod.fst := by
      simp only [List.map_cons, List.mem_cons, not_or] at haR
      exact haR
    have hstep : (L.map Prod.fst ++ a :: na :: R'.map Prod.fst).Nodup := by
      simpa using hnd
    have hstep2 : ((L.map Prod.fst ++ [a]) ++ na :: R'.map Prod.fst).Nodup := by
      rw [List.append_assoc, List.singleton_append]
      exact hstep
    rw [List.nodup_middle, List.nodup_cons] at hstep2
    have hnaL : na ∉ L.map Prod.fst := fun hm =>
      hstep2.1 (List.mem_append.mpr (Or.inl (List.mem_append.mpr (Or.inl hm))))
    have hnaa : ¬ a = na := haR'.1
    have hnaR' : na ∉ R'.map Prod.fst := fun hm =>
      hstep2.1 (List.mem_append.mpr (Or.inr hm))
    have hnbmm : nb.is_mmap = false := hwf.noMmap (na, nb) (by rw [hc]; simp)
    by_cases hnbf : nb.is_free = true
    · have h2 := (coalesce_with_next_cases (insert_free s a) a).1 L R' na nb
        { b with is_free := true } hchain1 haL hnaa haR'.2 hnaL hnaR' hnbf hnbmm
      rw [h2]
      have hRc' : List.Chain' nafR R' := (List.chain'_cons'.mp hRc).2
      have hheadR' : ∀ y ∈ R'.head?, y.2.is_free = false := by
        intro y hy
        rcases (List.chain'_cons'.mp hRc).1 y hy with h1 | h1
        · rw [hnbf] at h1; cases h1
        · exact h1
      refine noAdj_prev_stage _ a L R' _ hmmL rfl haL haR'.2 ?_ hLc hRc' hheadR'
      have hsub : (L.map Prod.fst ++ a :: R'.map Prod.fst).Nodup := by
        refine List.Nodup.sublist ?_ hstep
        exact List.Sublist.append_left
          (List.Sublist.cons₂ a (List.sublist_cons_self na (R'.map Prod.fst))) _
      simpa using hsub
    · have hnbf' : nb.is_free = false := by
        cases hh : nb.is_free
        · rfl
        · exact absurd hh hnbf
      have h2 := (coalesce_with_next_cases (insert_free s a) a).2.1 L R' na nb
        { b with is_free := true } hchain1 haL (Or.inl hnbf')
      rw [h2]
      refine noAdj_prev_stage _ a L ((na, nb) :: R') _ hmmL hchain1 haL haR
        (by simpa using hnd) hLc hRc ?_
      intro y hy
      simp only [List.head?_cons, Option.mem_def, Option.some.injEq] at hy
      rw [← hy]
      exact hnbf'

theorem noAdj_mm_free (s : AllocState) (p : Option Nat) (rel : List (Bool × Bool))
    (hwf : WF s) (h : NoAdjFree s.chain) (hval : ValidPtr s p) :
    NoAdjFree (mm_free s p rel).chain := by
  cases p with
  | none => exact h
  | some ptr =>
    rcases hval with hv | ⟨hnone, b, hbmem, -⟩
    · obtain ⟨mb, hmb⟩ := Option.isSome_iff_exists.mp hv
      simp only [mm_free, hmb]
      exact h
    · simp only [mm_free, hnone]
      exact noAdj_free_core s (ptr - HDRSZ) rel hwf h b hbmem

theorem noAdj_mm_calloc (s : AllocState) (nm sz : Nat) (os : OSOracle)
    (hwf : WF s) (h : NoAdjFree s.chain) :
    NoAdjFree (mm_calloc s nm sz os).1.chain := by
  rw [mm_calloc]
  by_cases h1 : nm = 0 || sz = 0
  · rw [if_pos h1]; exact h
  · rw [if_neg h1]
    by_cases h2 : SIZE_MAX / sz < nm
    · rw [if_pos h2]; exact h
    · rw [if_neg h2]
      rcases hm : mm_malloc s (nm * sz % U64) os with ⟨s1, r⟩
      have hpres := noAdj_mm_malloc s (nm * sz % U64) os hwf h
      rw [hm] at hpres
      simp only [hm]
      cases r with
      | none => exact hpres
      | some q => exact hpres

instance : DecidableRel nafR := fun x y =>
  inferInstanceAs (Decidable (x.2.is_free = false ∨ y.2.is_free = false))

/-- Executable mirror of `NoAdjFree`. -/
def noAdjFreeB : List (Nat × BlockHdr) → Bool
  | [] => true
  | [_] => true
  | x :: y :: rest => (!x.2.is_free || !y.2.is_free) && noAdjFreeB (y :: rest)

theorem noAdjFree_iff : ∀ c : List (Nat × BlockHdr),
    noAdjFreeB c = true ↔ NoAdjFree c
  | [] => by simp [noAdjFreeB, NoAdjFree]
  | [x] => by simp [noAdjFreeB, NoAdjFree]
  | x :: y :: rest => by
    rw [NoAdjFree_def, List.chain'_cons, noAdjFreeB]
    rw [Bool.and_eq_true, Bool.or_eq_true]
    constructor
    · rintro ⟨h1, h2⟩
      refine ⟨?_, (noAdjFree_iff (y :: rest)).mp h2⟩
      rcases h1 with h1 | h1
      · exact Or.inl (by simpa using h1)
      · exact Or.inr (by simpa using h1)
    · rintro ⟨h1, h2⟩
      refine ⟨?_, (noAdjFree_iff (y :: rest)).mpr h2⟩
      rcases h1 with h1 | h1
      · exact Or.inl (by simpa using h1)
      · exact Or.inr (by simpa using h1)

instance (c : List (Nat × BlockHdr)) : Decidable (NoAdjFree c) :=
  decidable_of_iff (noAdjFreeB c = true) (noAdjFree_iff c)

instance : DecidableRel gapR := fun x y =>
  inferInstanceAs (Decidable (x.1 + HDRSZ + x.2.size ≤ y.1))

instance (c : List (Nat × BlockHdr)) : Decidable (Spaced c) :=
  inferInstanceAs (Decidable (List.Pairwise gapR c))

/-- C1 (amended): the no-adjacent-free-pair invariant holds in the
initial state and is preserved by `mm_malloc`, `mm_free` (on a valid
pointer) and `mm_calloc` from any well-formed state; `mm_realloc` is
excluded because its in-place shrink violates the invariant (see the
counterexample). -/
theorem noAdjacentFree_invariant :
    (∀ b0, NoAdjFree (initState b0).chain) ∧
    (∀ s n os, WF s → NoAdjFree s.chain → NoAdjFree (mm_malloc s n os).1.chain) ∧
    (∀ s p rel, WF s → NoAdjFree s.chain → ValidPtr s p →
      NoAdjFree (mm_free s p rel).chain) ∧
    (∀ s nm sz os, WF s → NoAdjFree s.chain →
      NoAdjFree (mm_calloc s nm sz os).1.chain) :=
  ⟨fun _ => List.chain'_nil,
   noAdj_mm_malloc,
   noAdj_mm_free,
   noAdj_mm_calloc⟩

/-- Counterexample to C1 as stated: from the well-formed heap
`[A live 96 @0][B free 16 @144][C live 16 @208]` — which satisfies the
invariant — the public call `resize(A, 16)` shrinks `A` in place via
split and leaves the new free remainder at 64 adjacent to the already
free block at 144: two adjacent spatial-chain blocks are both free. -/
theorem noAdjacentFree_counterexample :
    WF ⟨[(0, ⟨96, false, false⟩), (144, ⟨16, true, false⟩), (208, ⟨16, false, false⟩)],
        [144], [], 272, fun _ => 0⟩ ∧
    NoAdjFree [(0, ⟨96, false, false⟩), (144, ⟨16, true, false⟩),
        (208, ⟨16, false, false⟩)] ∧
    ValidPtr ⟨[(0, ⟨96, false, false⟩), (144, ⟨16, true, false⟩),
        (208, ⟨16, false, false⟩)], [144], [], 272, fun _ => 0⟩ (some 48) ∧
    (mm_realloc ⟨[(0, ⟨96, false, false⟩), (144, ⟨16, true, false⟩),
        (208, ⟨16, false, false⟩)], [144], [], 272, fun _ => 0⟩
      (some 48) 16 ⟨true, true, 0⟩ []).2 = some 48 ∧
    (mm_realloc ⟨[(0, ⟨96, false, false⟩), (144, ⟨16, true, false⟩),
        (208, ⟨16, false, false⟩)], [144], [], 272, fun _ => 0⟩
      (some 48) 16 ⟨true, true, 0⟩ []).1.chain =
      [(0, ⟨16, false, false⟩), (64, ⟨32, true, false⟩), (144, ⟨16, true, false⟩),
        (208, ⟨16, false, false⟩)] ∧
    ¬ NoAdjFree ((mm_realloc ⟨[(0, ⟨96, false, false⟩), (144, ⟨16, true, false⟩),
        (208, ⟨16, false, false⟩)], [144], [], 272, fun _ => 0⟩
      (some 48) 16 ⟨true, true, 0⟩ []).1.chain) := by
  refine ⟨?_, by decide, ?_, by decide, by decide, by decide⟩
  · refine ⟨by decide, by decide, by decide, by decide, by decide, by decide, ?_,
      by decide, by decide, by decide⟩
    intro x hx
    simp only [List.mem_singleton] at hx
    subst hx
    exact ⟨⟨16, true, false⟩, by decide, rfl⟩
  · exact Or.inr ⟨rfl, ⟨96, false, false⟩, by decide, rfl⟩

/-- Witness for C1: the preservation conjuncts applied on concrete
well-formed states: an allocation from the empty state and a free of
the single live block of a one-block heap both maintain the invariant. -/
theorem noAdjacentFree_invariant_witness :
    NoAdjFree (mm_malloc (initState 0) 16 ⟨true, true, 0⟩).1.chain ∧
    NoAdjFree (mm_free ⟨[(0, ⟨16, false, false⟩)], [], [], 64, fun _ => 0⟩
      (some 48) [(true, true)]).chain ∧
    NoAdjFree (mm_calloc (initState 0) 2 8 ⟨true, true, 0⟩).1.chain := by
  have hwf0 : WF (initState 0) := by
    refine ⟨by decide, ?_, ?_, ?_, by decide, ?_, ?_, ?_, by decide, ?_⟩ <;>
      (intro x hx; cases hx)
  have hwf1 : WF ⟨[(0, ⟨16, false, false⟩)], [], [], 64, fun _ => 0⟩ := by
    refine ⟨by decide, by decide, by decide, by decide, by decide, by decide, ?_,
      by decide, by decide, by decide⟩
    intro x hx
    cases hx
  refine ⟨noAdjacentFree_invariant.2.1 (initState 0) 16 ⟨true, true, 0⟩ hwf0
      (noAdjacentFree_invariant.1 0),
    noAdjacentFree_invariant.2.2.1 _ (some 48) [(true, true)] hwf1 (by decide) ?_,
    noAdjacentFree_invariant.2.2.2 (initState 0) 2 8 ⟨true, true, 0⟩ hwf0
      (noAdjacentFree_invariant.1 0)⟩
  exact Or.inr ⟨rfl, ⟨16, false, false⟩, by decide, rfl⟩

/-! ## C2: size alignment and positivity -/

/-- Every block of a chain has a size that is a positive multiple of 16. -/
def sizeOK (c : List (Nat × BlockHdr)) : Prop :=
  ∀ x ∈ c, x.2.size % 16 = 0 ∧ 16 ≤ x.2.size

theorem SizeInv_def (s : AllocState) :
    SizeInv s = (sizeOK s.chain ∧ sizeOK s.mmaps) := rfl

theorem mem_setFlag (c : List (Nat × BlockHdr)) (a : Nat) (fl : Bool) :
    ∀ x ∈ setFlag c a fl, ∃ y ∈ c, x.1 = y.1 ∧ x.2.size = y.2.size ∧
      x.2.is_mmap = y.2.is_mmap := by
  induction c with
  | nil => intro x hx; cases hx
  | cons z c ih =>
    intro x hx
    rw [setFlag] at hx
    rcases List.mem_cons.mp hx with rfl | hx
    · by_cases hz : z.1 = a
      · exact ⟨z, List.mem_cons_self z c, by simp [hz]⟩
      · exact ⟨z, List.mem_cons_self z c, by simp [hz]⟩
    · obtain ⟨y, hy, hprop⟩ := ih x hx
      exact ⟨y, List.mem_cons_of_mem z hy, hprop⟩

theorem mem_setSize (c : List (Nat × BlockHdr)) (a n : Nat) :
    ∀ x ∈ setSize c a n, x ∈ c ∨ ∃ y ∈ c, x = (y.1, { y.2 with size := n }) := by
  induction c with
  | nil => intro x hx; cases hx
  | cons z c ih =>
    intro x hx
    rw [setSize] at hx
    rcases List.mem_cons.mp hx with rfl | hx
    · by_cases hz : z.1 = a
      · exact Or.inr ⟨z, List.mem_cons_self z c, by simp [hz]⟩
      · simp only [hz, if_false]
        exact Or.inl (List.mem_cons_self z c)
    · rcases ih x hx with h | ⟨y, hy, hs⟩
      · exact Or.inl (List.mem_cons_of_mem z h)
      · exact Or.inr ⟨y, List.mem_cons_of_mem z hy, hs⟩

theorem mem_removeAddr (c : List (Nat × BlockHdr)) (a : Nat) :
    ∀ x ∈ removeAddr c a, x ∈ c := by
  induction c with
  | nil => intro x hx; cases hx
  | cons z c ih =>
    intro x hx
    rw [removeAddr] at hx
    by_cases hz : z.1 = a
    · rw [if_pos hz] at hx
      exact List.mem_cons_of_mem z (ih x hx)
    · rw [if_neg hz] at hx
      rcases List.mem_cons.mp hx with rfl | hx
      · exact List.mem_cons_self x c
      · exact List.mem_cons_of_mem z (ih x hx)

theorem mem_splitChain (a n newA : Nat) (nb : BlockHdr) :
    ∀ c : List (Nat × BlockHdr), ∀ x ∈ splitChain a n newA nb c,
      x ∈ c ∨ x = (newA, nb) ∨ ∃ y ∈ c, x = (y.1, { y.2 with size := n })
  | [], x, hx => by cases hx
  | z :: c, x, hx => by
    rw [splitChain] at hx
    by_cases hz : z.1 = a
    · rw [if_pos hz] at hx
      rcases List.mem_cons.mp hx with rfl | hx
      · exact Or.inr (Or.inr ⟨z, List.mem_cons_self z c, rfl⟩)
      · rcases List.mem_cons.mp hx with rfl | hx
        · exact Or.inr (Or.inl rfl)
        · exact Or.inl (List.mem_cons_of_mem z hx)
    · rw [if_neg hz] at hx
      rcases List.mem_cons.mp hx with rfl | hx
      · exact Or.inl (List.mem_cons_self x c)
      · rcases mem_splitChain a n newA nb c x hx with h | h | ⟨y, hy, hs⟩
        · exact Or.inl (List.mem_cons_of_mem z h)
        · exact Or.inr (Or.inl h)
        · exact Or.inr (Or.inr ⟨y, List.mem_cons_of_mem z hy, hs⟩)

theorem lookupBlock_mem {c : List (Nat × BlockHdr)} {a : Nat} {b : BlockHdr}
    (h : lookupBlock c a = some b) : (a, b) ∈ c := by
  rw [lookupBlock] at h
  cases hf : c.find? (fun x => x.1 == a) with
  | none => rw [hf] at h; cases h
  | some x =>
    rw [hf] at h
    injection h with hb
    have hx := List.mem_of_find?_eq_some hf
    have hpred := List.find?_some hf
    have hax : x.1 = a := by simpa using hpred
    have : x = (a, b) := by
      rcases x with ⟨x1, x2⟩
      simp only at hax hb
      rw [hax, hb]
    rw [← this]
    exact hx

theorem nextOf_mem : ∀ (c : List (Nat × BlockHdr)) (a : Nat) (y : Nat × BlockHdr),
    nextOf c a = some y → y ∈ c
  | [], _, y, h => by cases h
  | [_], _, y, h => by cases h
  | x :: z :: rest, a, y, h => by
    rw [nextOf] at h
    by_cases hx : x.1 = a
    · rw [if_pos hx] at h
      injection h with h
      rw [← h]
      exact List.mem_cons_of_mem x (List.mem_cons_self z rest)
    · rw [if_neg hx] at h
      exact List.mem_cons_of_mem x (nextOf_mem (z :: rest) a y h)

theorem prevOf_mem : ∀ (c : List (Nat × BlockHdr)) (a : Nat) (y : Nat × BlockHdr),
    prevOf c a = some y → y ∈ c
  | [], _, y, h => by cases h
  | [_], _, y, h => by cases h
  | x :: z :: rest, a, y, h => by
    rw [prevOf] at h
    by_cases hz : z.1 = a
    · rw [if_pos hz] at h
      injection h with h
      rw [← h]
      exact List.mem_cons_self x (z :: rest)
    · rw [if_neg hz] at h
      exact List.mem_cons_of_mem x (prevOf_mem (z :: rest) a y h)

theorem sizeOK_setFlag {c : List (Nat × BlockHdr)} (a : Nat) (fl : Bool)
    (h : sizeOK c) : sizeOK (setFlag c a fl) := by
  intro x hx
  obtain ⟨y, hy, -, hsz, -⟩ := mem_setFlag c a fl x hx
  rw [hsz]
  exact h y hy

theorem sizeOK_removeAddr {c : List (Nat × BlockHdr)} (a : Nat)
    (h : sizeOK c) : sizeOK (removeAddr c a) :=
  fun x hx => h x (mem_removeAddr c a x hx)

theorem sizeOK_dropLast {c : List (Nat × BlockHdr)} (h : sizeOK c) :
    sizeOK c.dropLast :=
  fun x hx => h x ((List.dropLast_sublist c).subset hx)

theorem sizeInv_insert_free (s : AllocState) (a : Nat) (h : SizeInv s) :
    SizeInv (insert_free s a) :=
  ⟨sizeOK_setFlag a true h.1, h.2⟩

theorem sizeInv_remove_free (s : AllocState) (a : Nat) (h : SizeInv s) :
    SizeInv (remove_free s a) :=
  ⟨sizeOK_setFlag a false h.1, h.2⟩

theorem blkSize_mod16 (s : AllocState) (a : Nat) (h : SizeInv s) :
    blkSize s.chain a % 16 = 0 := by
  rw [blkSize]
  cases hl : lookupBlock s.chain a with
  | none => simp
  | some b =>
    have := h.1 (a, b) (lookupBlock_mem hl)
    simpa using this.1

theorem sizeInv_coalesce_next (s : AllocState) (a : Nat) (h : SizeInv s) :
    SizeInv (coalesce_with_next s a) := by
  rw [coalesce_with_next]
  cases hn : nextOf s.chain a with
  | none => exact h
  | some y =>
    rcases y with ⟨na, nb⟩
    simp only
    by_cases hcond : nb.is_free && !nb.is_mmap
    · rw [if_pos hcond]
      have hnb : nb.size % 16 = 0 ∧ 16 ≤ nb.size :=
        h.1 (na, nb) (nextOf_mem s.chain a _ hn)
      have hbsz := blkSize_mod16 s a h
      have h48 : HDRSZ = 48 := HDRSZ_eq
      refine ⟨?_, h.2⟩
      intro x hx
      have hx1 := mem_removeAddr _ na x hx
      rcases mem_setSize _ a _ x hx1 with h1 | ⟨y, hy, rfl⟩
      · obtain ⟨z, hz, -, hsz, -⟩ := mem_setFlag s.chain na false x h1
        rw [hsz]
        exact h.1 z hz
      · refine ⟨?_, ?_⟩ <;> simp only <;> omega
    · rw [if_neg hcond]
      exact h

theorem sizeInv_coalesce_prev (s : AllocState) (a : Nat) (h : SizeInv s) :
    SizeInv ((coalesce_with_prev s a).1) := by
  rw [coalesce_with_prev]
  cases hp : prevOf s.chain a with
  | none => exact h
  | some y =>
    rcases y with ⟨pa, pb⟩
    simp only
    by_cases hcond : pb.is_free && !pb.is_mmap
    · rw [if_pos hcond]
      have hpb : pb.size % 16 = 0 ∧ 16 ≤ pb.size :=
        h.1 (pa, pb) (prevOf_mem s.chain a _ hp)
      have hbsz := blkSize_mod16 s a h
      have h48 : HDRSZ = 48 := HDRSZ_eq
      refine ⟨?_, h.2⟩
      intro x hx
      obtain ⟨z, hz, -, hsz0, -⟩ := mem_setFlag _ pa true x hx
      rw [hsz0]
      have hz1 := mem_removeAddr _ a z hz
      rcases mem_setSize _ pa _ z hz1 with h1 | ⟨y, hy, rfl⟩
      · obtain ⟨w, hw, -, hsz1, -⟩ := mem_setFlag _ pa false z h1
        rw [hsz1]
        obtain ⟨v, hv, -, hsz2, -⟩ := mem_setFlag s.chain a false w hw
        rw [hsz2]
        exact h.1 v hv
      · refine ⟨?_, ?_⟩ <;> simp only <;> omega
    · rw [if_neg hcond]
      exact h

theorem sizeInv_try_release_go (fuel : Nat) :
    ∀ (s : AllocState) (os : List (Bool × Bool)), SizeInv s →
      SizeInv (try_release_go fuel s os) := by
  induction fuel with
  | zero => intro s os h; exact h
  | succ fuel ih =>
    intro s os h
    rw [try_release_go_succ]
    cases hl : s.chain.getLast? with
    | none => exact h
    | some t =>
      rcases t with ⟨ta, tb⟩
      simp only
      by_cases hcond : tb.is_free && !tb.is_mmap
      · rw [if_pos hcond]
        have hstep : SizeInv { remove_free s ta with
            chain := (remove_free s ta).chain.dropLast } :=
          ⟨sizeOK_dropLast (sizeOK_setFlag ta false h.1), h.2⟩
        cases os with
        | nil => exact ih _ _ hstep
        | cons o rest =>
          simp only
          by_cases h1 : o.1 = true
          · simp only [h1, if_true]
            exact ih _ _ ⟨hstep.1, hstep.2⟩
          · simp only [h1, if_false]
            by_cases h2 : o.2 = true
            · simp only [h2, if_true]
              exact ih _ _ ⟨hstep.1, hstep.2⟩
            · simp only [h2, if_false]
              exact ih _ _ hstep
      · rw [if_neg hcond]
        exact h

theorem sizeInv_try_release (s : AllocState) (os : List (Bool × Bool))
    (h : SizeInv s) : SizeInv (try_release_memory_to_os s os) :=
  sizeInv_try_release_go s.chain.length s os h

theorem sizeInv_split_block (s : AllocState) (a n : Nat)
    (hmod : n % 16 = 0) (h16 : 16 ≤ n) (h : SizeInv s) :
    SizeInv (split_block s a n) := by
  rw [split_block]
  cases hl : lookupBlock s.chain a with
  | none => exact h
  | some b =>
    simp only
    by_cases hsp : b.size < n + HDRSZ + MIN_SPLIT_SIZE
    · rw [if_pos hsp]
      exact h
    · rw [if_neg hsp]
      have hb : b.size % 16 = 0 ∧ 16 ≤ b.size := h.1 (a, b) (lookupBlock_mem hl)
      have h48 : HDRSZ = 48 := HDRSZ_eq
      simp only [MIN_SPLIT_SIZE] at hsp
      refine ⟨?_, h.2⟩
      intro x hx
      obtain ⟨y, hy, -, hsz, -⟩ := mem_setFlag _ _ true x hx
      rw [hsz]
      rcases mem_splitChain a n _ _ s.chain y hy with h1 | rfl | ⟨z, hz, rfl⟩
      · exact h.1 y h1
      · refine ⟨?_, ?_⟩ <;> simp only <;> omega
      · exact ⟨hmod, h16⟩

theorem sizeInv_request_space_sbrk (s : AllocState) (n : Nat) (ok : Bool)
    (hmod : n % 16 = 0) (h16 : 16 ≤ n) (h : SizeInv s) :
    SizeInv (request_space_sbrk s n ok).1 := by
  rw [request_space_sbrk]
  cases ok
  · exact h
  · rw [if_pos rfl]
    refine ⟨?_, h.2⟩
    intro x hx
    rcases List.mem_append.mp hx with h1 | h1
    · exact h.1 x h1
    · simp only [List.mem_singleton] at h1
      subst h1
      exact ⟨hmod, h16⟩

theorem sizeInv_request_mmap (s : AllocState) (n : Nat) (ok : Bool) (maddr : Nat)
    (hmod : n % 16 = 0) (h16 : 16 ≤ n) (h : SizeInv s) :
    SizeInv (request_mmap s n ok maddr).1 := by
  rw [request_mmap]
  cases ok
  · exact h
  · rw [if_pos rfl]
    refine ⟨h.1, ?_⟩
    intro x hx
    rcases List.mem_cons.mp hx with rfl | h1
    · exact ⟨hmod, h16⟩
    · exact h.2 x h1

theorem sizeInv_mm_malloc (s : AllocState) (n : Nat) (os : OSOracle)
    (hnw : n + 15 < U64) (h : SizeInv s) : SizeInv (mm_malloc s n os).1 := by
  by_cases hn0 : n = 0
  · rw [mm_malloc, if_pos hn0]
    exact h
  · rw [mm_malloc, if_neg hn0]
    have hmod := ALIGN_UP_mod16 n
    have h16 : 16 ≤ ALIGN_UP n := ALIGN_UP_pos (Nat.pos_of_ne_zero hn0) hnw
    by_cases hth : MMAP_THRESHOLD ≤ ALIGN_UP n
    · rw [if_pos hth]
      rcases hr : request_mmap s (ALIGN_UP n) os.mmapOk os.mmapAddr with ⟨s1, r⟩
      have hpres : SizeInv s1 := by
        have h0 := sizeInv_request_mmap s (ALIGN_UP n) os.mmapOk os.mmapAddr hmod h16 h
        rw [hr] at h0
        exact h0
      cases r with
      | none => exact hpres
      | some q => exact hpres
    · rw [if_neg hth]
      cases hf : find_free_block s (ALIGN_UP n) with
      | some a =>
        exact sizeInv_split_block _ a (ALIGN_UP n) hmod h16 (sizeInv_remove_free s a h)
      | none =>
        rcases hr : request_space_sbrk s (ALIGN_UP n) os.sbrkOk with ⟨s1, r⟩
        have hpres : SizeInv s1 := by
          have h0 := sizeInv_request_space_sbrk s (ALIGN_UP n) os.sbrkOk hmod h16 h
          rw [hr] at h0
          exact h0
        cases r with
        | none => exact hpres
        | some q => exact hpres

theorem sizeInv_mm_free (s : AllocState) (p : Option Nat)
    (rel : List (Bool × Bool)) (h : SizeInv s) : SizeInv (mm_free s p rel) := by
  cases p with
  | none => exact h
  | some ptr =>
    cases hmb : lookupBlock s.mmaps (ptr - HDRSZ) with
    | some mb =>
      simp only [mm_free, hmb]
      exact ⟨h.1, sizeOK_removeAddr _ h.2⟩
    | none =>
      simp only [mm_free, hmb]
      exact sizeInv_try_release _ rel
        (sizeInv_coalesce_prev _ (ptr - HDRSZ)
          (sizeInv_coalesce_next _ (ptr - HDRSZ)
            (sizeInv_insert_free s (ptr - HDRSZ) h)))

theorem sizeInv_mm_calloc (s : AllocState) (nm sz : Nat) (os : OSOracle)
    (hnw : nm * sz + 15 < U64) (h : SizeInv s) :
    SizeInv (mm_calloc s nm sz os).1 := by
  rw [mm_calloc]
  by_cases h1 : nm = 0 || sz = 0
  · rw [if_pos h1]; exact h
  · rw [if_neg h1]
    by_cases h2 : SIZE_MAX / sz < nm
    · rw [if_pos h2]; exact h
    · rw [if_neg h2]
      have hnw' : nm * sz % U64 + 15 < U64 := by
        have := Nat.mod_le (nm * sz) U64
        omega
      have hpres := sizeInv_mm_malloc s (nm * sz % U64) os hnw' h
      rcases hm : mm_malloc s (nm * sz % U64) os with ⟨s1, r⟩
      rw [hm] at hpres
      simp only [hm]
      cases r with
      | none => exact hpres
      | some q => exact ⟨hpres.1, hpres.2⟩

theorem sizeInv_mm_realloc (s : AllocState) (p : Option Nat) (n : Nat)
    (os : OSOracle) (rel : List (Bool × Bool))
    (hnw : n + 15 < U64) (h : SizeInv s) :
    SizeInv (mm_realloc s p n os rel).1 := by
  cases p with
  | none => exact sizeInv_mm_malloc s n os hnw h
  | some ptr =>
    simp only [mm_realloc]
    by_cases hn0 : n = 0
    · rw [if_pos hn0]
      exact sizeInv_mm_free s (some ptr) rel h
    · rw [if_neg hn0]
      have hmod := ALIGN_UP_mod16 n
      have h16 : 16 ≤ ALIGN_UP n := ALIGN_UP_pos (Nat.pos_of_ne_zero hn0) hnw
      have hU : U64 = 18446744073709551616 := rfl
      have halt : ALIGN_UP n < n + 16 := ALIGN_UP_lt hnw
      have hnw2 : ALIGN_UP n + 15 < U64 := by omega
      have hreloc : ∀ (sz0 : Nat), SizeInv ((match mm_malloc s (ALIGN_UP n) os with
          | (s1, none) => (s1, none)
          | (s1, some np) =>
            (mm_free { s1 with mem := memcpy s1.mem np ptr sz0 } (some ptr) rel,
              some np)).1) := by
        intro sz0
        rcases hm : mm_malloc s (ALIGN_UP n) os with ⟨s1, r⟩
        have hpres : SizeInv s1 := by
          have h0 := sizeInv_mm_malloc s (ALIGN_UP n) os hnw2 h
          rw [hm] at h0
          exact h0
        cases r with
        | none => exact hpres
        | some np =>
          exact sizeInv_mm_free _ (some ptr) rel ⟨hpres.1, hpres.2⟩
      cases hmb : lookupBlock s.mmaps (ptr - HDRSZ) with
      | some mb =>
        simp only
        by_cases hle : ALIGN_UP n ≤ mb.size
        · rw [if_pos hle]
          exact h
        · rw [if_neg hle]
          exact hreloc mb.size
      | none =>
        simp only
        cases hcb : lookupBlock s.chain (ptr - HDRSZ) with
        | none => exact h
        | some b =>
          simp only
          by_cases hle : ALIGN_UP n ≤ b.size
          · rw [if_pos hle]
            exact sizeInv_split_block s (ptr - HDRSZ) (ALIGN_UP n) hmod h16 h
          · rw [if_neg hle]
            cases hnx : nextOf s.chain (ptr - HDRSZ) with
            | none => exact hreloc b.size
            | some y =>
              rcases y with ⟨na, nb⟩
              simp only
              by_cases hcond : (nb.is_free && !nb.is_mmap &&
                  decide (ALIGN_UP n ≤ b.size + HDRSZ + nb.size)) = true
              · rw [if_pos hcond]
                have hnb : nb.size % 16 = 0 ∧ 16 ≤ nb.size :=
                  h.1 (na, nb) (nextOf_mem s.chain (ptr - HDRSZ) _ hnx)
                have hb : b.size % 16 = 0 ∧ 16 ≤ b.size :=
                  h.1 (ptr - HDRSZ, b) (lookupBlock_mem hcb)
                have h48 : HDRSZ = 48 := HDRSZ_eq
                refine sizeInv_split_block _ (ptr - HDRSZ) (ALIGN_UP n) hmod h16 ⟨?_, h.2⟩
                intro x hx
                have hx1 := mem_removeAddr _ na x hx
                rcases mem_setSize _ (ptr - HDRSZ) _ x hx1 with h1 | ⟨y, hy, rfl⟩
                · obtain ⟨z, hz, -, hsz, -⟩ := mem_setFlag s.chain na false x h1
                  rw [hsz]
                  exact h.1 z hz
                · refine ⟨?_, ?_⟩ <;> simp only <;> omega
              · rw [if_neg hcond]
                exact hreloc b.size

instance (s : AllocState) : Decidable (SizeInv s) :=
  inferInstanceAs (Decidable ((∀ x ∈ s.chain, x.2.size % 16 = 0 ∧ 16 ≤ x.2.size) ∧
    (∀ x ∈ s.mmaps, x.2.size % 16 = 0 ∧ 16 ≤ x.2.size)))

/-- C2 (amended): every block's recorded size — on the spatial chain and
among the mapped blocks — is a positive multiple of 16 after every
public operation, provided the request sizes involved have their
16-alignment computed without `size_t` wraparound (`n + 15 < 2^64`,
and `count * size + 15 < 2^64` for `zero_allocate`); the invariant also
holds in the initial state. -/
theorem sizeInv_invariant :
    (∀ b0, SizeInv (initState b0)) ∧
    (∀ s n os, n + 15 < U64 → SizeInv s → SizeInv (mm_malloc s n os).1) ∧
    (∀ s p rel, SizeInv s → SizeInv (mm_free s p rel)) ∧
    (∀ s nm sz os, nm * sz + 15 < U64 → SizeInv s →
      SizeInv (mm_calloc s nm sz os).1) ∧
    (∀ s p n os rel, n + 15 < U64 → SizeInv s →
      SizeInv (mm_realloc s p n os rel).1) :=
  ⟨fun _ => ⟨fun x hx => absurd hx (List.not_mem_nil x),
     fun x hx => absurd hx (List.not_mem_nil x)⟩,
   sizeInv_mm_malloc, sizeInv_mm_free, sizeInv_mm_calloc, sizeInv_mm_realloc⟩

/-- Counterexample to C2 as stated: the request `n = 2^64 - 5 > 0`
passes `mm_malloc`'s zero-size guard, but `ALIGN_UP` wraps it to `0`
(size_t arithmetic), so the sbrk path creates — and the call returns a
pointer into — a block whose recorded size is `0`, not a positive
multiple of 16. -/
theorem sizeInv_counterexample :
    SizeInv (initState 0) ∧
    0 < U64 - 5 ∧
    (mm_malloc (initState 0) (U64 - 5) ⟨true, true, 0⟩).2 = some 48 ∧
    (mm_malloc (initState 0) (U64 - 5) ⟨true, true, 0⟩).1.chain =
      [(0, ⟨0, false, false⟩)] ∧
    ¬ SizeInv (mm_malloc (initState 0) (U64 - 5) ⟨true, true, 0⟩).1 := by
  exact ⟨by decide, by decide, by decide, by decide, by decide⟩

/-- Witness for C2: the preservation conjuncts applied on concrete
states: an allocation, a free, a zero-allocation and an in-place
shrinking resize all keep every block size a positive multiple of 16. -/
theorem sizeInv_invariant_witness :
    SizeInv (mm_malloc (initState 0) 100 ⟨true, true, 0⟩).1 ∧
    SizeInv (mm_free ⟨[(0, ⟨16, false, false⟩)], [], [], 64, fun _ => 0⟩
      (some 48) [(true, true)]) ∧
    SizeInv (mm_calloc (initState 0) 3 5 ⟨true, true, 0⟩).1 ∧
    SizeInv (mm_realloc ⟨[(0, ⟨96, false, false⟩)], [], [], 144, fun _ => 0⟩
      (some 48) 16 ⟨true, true, 0⟩ []).1 :=
  ⟨sizeInv_invariant.2.1 (initState 0) 100 ⟨true, true, 0⟩ (by decide) (by decide),
   sizeInv_invariant.2.2.1 ⟨[(0, ⟨16, false, false⟩)], [], [], 64, fun _ => 0⟩
     (some 48) [(true, true)] (by decide),
   sizeInv_invariant.2.2.2.1 (initState 0) 3 5 ⟨true, true, 0⟩ (by decide) (by decide),
   sizeInv_invariant.2.2.2.2 ⟨[(0, ⟨96, false, false⟩)], [], [], 144, fun _ => 0⟩
     (some 48) 16 ⟨true, true, 0⟩ [] (by decide) (by decide)⟩

end MMAlloc
